import Mathlib

/-!
# timage: tape to tape-image copy (src/timage.c)

A shallow embedding of `timage.c`.

* Bytes are natural numbers; a byte list is `List Nat`.
* The source (tape or stdin) is the list of the results of its successive
  physical reads, a zero-length result being a tape mark; a read past the end
  of the list is zero-length.  The shared file offset is the number `pos` of
  reads performed so far (a non-rewinding device keeps it across opens).
  `read(from, buffer, MAXSIZE)` delivers at most `MAXSIZE` bytes.
* I/O errors (`error(...)`, negative read results, short writes) are not
  modelled: every read and write succeeds.
* The parent and the child of one `fork` are two sequential programs with a
  program counter each; a step of the pair is a step of one of them.  A read
  from an empty pipe is blocked (no step).
-/

namespace Timage

/-- Default of the macro `MAXSIZE` (line 38). -/
def MAXSIZE : Nat := 20 * 1024

/-- The four header bytes `hdr[0..3]` that `PutCount` (lines 51-66) writes. -/
def PutCount (nc : Nat) : List Nat :=
  [nc &&& 0xFF, (nc >>> 8) &&& 0xFF, (nc >>> 16) &&& 0xFF, (nc >>> 24) &&& 0xFF]

/-- Lines 156-157 and 200-201: `if ((nx = nc) % 2 != 0) buffer[nx++] = 0;`.
The result is the buffer and `nx`; `none` when the store or the following
`write` of `nx` bytes would leave the buffer. -/
def padEven (buffer : List Nat) (nc : Nat) : Option (List Nat × Nat) :=
  if nc % 2 ≠ 0 then
    if nc < buffer.length then some (buffer.set nc 0, nc + 1) else none
  else
    if nc ≤ buffer.length then some (buffer, nc) else none

/-- The bytes one physical read delivers at offset `pos`. -/
def readData (src : List (List Nat)) (pos : Nat) : List Nat :=
  (src.getD pos []).take MAXSIZE

/-- The buffer after `read(from, buffer, MAXSIZE)` stored `data` at its start. -/
def readInto (buffer data : List Nat) : List Nat :=
  data ++ buffer.drop data.length

/-- Program points of the parent (lines 172-227). -/
inductive PPc
  | pRead    -- line 174-181: physical read, `bs`, `eof`, `count`
  | pSendR   -- line 183: token to the child after the read
  | pRecvW   -- line 190: token from the child before the write
  | pPut1    -- line 195-198: first `PutCount`, break on `nc == 0`
  | pData    -- line 200-204: pad and write the payload
  | pPut2    -- line 206: second `PutCount`
  | pSendW   -- line 210: token to the child after the write
  | pRecvR   -- line 217-223: token from the child, break on `eof`
  | pWait    -- line 226: `wait` for the child
  | pDone    -- after line 230
  deriving DecidableEq, Repr

/-- Program points of the child (lines 117-165). -/
inductive CPc
  | cSendW   -- line 121: token to the parent before the read
  | cRecvR   -- line 128-132: token from the parent, break on `eof`
  | cRead    -- line 134-137: physical read, `eof`
  | cSendR   -- line 139: token to the parent after the read
  | cRecvW   -- line 146: token from the parent before the write
  | cPut1    -- line 151-154: first `PutCount`, break on `nc == 0`
  | cData    -- line 156-160: pad and write the payload
  | cPut2    -- line 162: second `PutCount`
  | cExit    -- line 165: `_exit(0)`
  deriving DecidableEq, Repr

/-- State of one Reader Pair pass: the shared source offset, image file and
pipes, and the private variables of the two processes. -/
structure State where
  pos : Nat
  image : List Nat
  pipe0 : List Bool
  pipe1 : List Bool
  ppc : PPc
  pnc : Nat
  peof : Bool
  pbuf : List Nat
  count : Nat
  bs : Nat
  cpc : CPc
  cnc : Nat
  ceof : Bool
  cbuf : List Nat
  deriving DecidableEq, Repr

open PPc CPc

/-- One step of the parent (lines 172-227); `none` when it is blocked or done. -/
def stepParent (src : List (List Nat)) (s : State) : Option State :=
  match s.ppc with
  | pRead =>
    let data := readData src s.pos
    let nc := data.length
    some { s with
      pos := s.pos + 1
      pbuf := readInto s.pbuf data
      pnc := nc
      bs := if s.count = 0 then nc else s.bs
      peof := (nc == 0)
      count := if nc = 0 then s.count else s.count + 1
      ppc := pSendR }
  | pSendR => some { s with pipe0 := s.pipe0 ++ [s.peof], ppc := pRecvW }
  | pRecvW =>
    match s.pipe1 with
    | [] => none
    | t :: rest => some { s with pipe1 := rest, peof := t, ppc := pPut1 }
  | pPut1 =>
    some { s with
      image := s.image ++ PutCount s.pnc
      ppc := if s.pnc = 0 then pWait else pData }
  | pData =>
    match padEven s.pbuf s.pnc with
    | none => none
    | some (buf, nx) =>
      some { s with pbuf := buf, image := s.image ++ buf.take nx, ppc := pPut2 }
  | pPut2 => some { s with image := s.image ++ PutCount s.pnc, ppc := pSendW }
  | pSendW => some { s with pipe0 := s.pipe0 ++ [s.peof], ppc := pRecvR }
  | pRecvR =>
    match s.pipe1 with
    | [] => none
    | t :: rest =>
      some { s with
        pipe1 := rest
        peof := t
        count := if t then s.count else s.count + 1
        ppc := if t then pWait else pRead }
  | pWait => if s.cpc = cExit then some { s with ppc := pDone } else none
  | pDone => none

/-- One step of the child (lines 117-165); `none` when it is blocked or has
exited. -/
def stepChild (src : List (List Nat)) (s : State) : Option State :=
  match s.cpc with
  | cSendW => some { s with pipe1 := s.pipe1 ++ [s.ceof], cpc := cRecvR }
  | cRecvR =>
    match s.pipe0 with
    | [] => none
    | t :: rest =>
      some { s with pipe0 := rest, ceof := t, cpc := if t then cExit else cRead }
  | cRead =>
    let data := readData src s.pos
    let nc := data.length
    some { s with
      pos := s.pos + 1
      cbuf := readInto s.cbuf data
      cnc := nc
      ceof := (nc == 0)
      cpc := cSendR }
  | cSendR => some { s with pipe1 := s.pipe1 ++ [s.ceof], cpc := cRecvW }
  | cRecvW =>
    match s.pipe0 with
    | [] => none
    | t :: rest => some { s with pipe0 := rest, ceof := t, cpc := cPut1 }
  | cPut1 =>
    some { s with
      image := s.image ++ PutCount s.cnc
      cpc := if s.cnc = 0 then cExit else cData }
  | cData =>
    match padEven s.cbuf s.cnc with
    | none => none
    | some (buf, nx) =>
      some { s with cbuf := buf, image := s.image ++ buf.take nx, cpc := cPut2 }
  | cPut2 => some { s with image := s.image ++ PutCount s.cnc, cpc := cSendW }
  | cExit => none

/-- A step of the unit `who`: `true` is the parent, `false` the child. -/
def step (src : List (List Nat)) (who : Bool) (s : State) : Option State :=
  if who then stepParent src s else stepChild src s

/-- The variables of `main` that live across volumes, with the diagnostic
lines written to `stderr` so far. -/
structure Main where
  pos : Nat
  image : List Nat
  buffer : List Nat
  nc : Nat
  eof : Bool
  bs : Nat
  diag : List String
  deriving DecidableEq, Repr

/-- State right after `fork` (line 107): fresh pipes, the child starts with a
copy of the memory of the parent, `count = 0` (line 172), `eof = 0` in the
child (line 117). -/
def initPass (m : Main) : State :=
  { pos := m.pos, image := m.image, pipe0 := [], pipe1 := []
    ppc := pRead, pnc := m.nc, peof := m.eof, pbuf := m.buffer, count := 0, bs := m.bs
    cpc := cSendW, cnc := m.nc, ceof := false, cbuf := m.buffer }

/-- Scheduling with an oracle: the unit `b` moves when it can, else the other. -/
def next (src : List (List Nat)) (b : Bool) (s : State) : Option State :=
  match step src b s with
  | some s1 => some s1
  | none => step src (!b) s

/-- One Reader Pair pass under the schedule `sched`, until the parent has
joined the child; `none` when the fuel runs out or no unit can move. -/
def runPass (src : List (List Nat)) : Nat → List Bool → State → Option (State × List Bool)
  | 0, _, _ => none
  | fuel + 1, sched, s =>
    if s.ppc = pDone then some (s, sched)
    else
      match next src (sched.headD true) s with
      | none => none
      | some s1 => runPass src fuel sched.tail s1

/-- Lines 237-242: the diagnostic line of one volume. -/
def report (count bs : Nat) : String :=
  if count = 0 then "EOM\n" else s!"{count} records, blocksize {bs}\n"

/-- The `do ... while ( count > 0L )` loop of lines 91-244; `F` is the fuel of
each pass. -/
def volumeLoop (src : List (List Nat)) (F : Nat) : Nat → List Bool → Main → Option Main
  | 0, _, _ => none
  | fuel + 1, sched, m =>
    match runPass src F sched (initPass m) with
    | none => none
    | some (s, sched1) =>
      let m1 : Main :=
        { pos := s.pos, image := s.image, buffer := s.pbuf, nc := s.pnc, eof := s.peof
          bs := s.bs, diag := m.diag ++ [report s.count s.bs] }
      if s.count > 0 then volumeLoop src F fuel sched1 m1 else some m1

/-- State of `main` before the loop: offset 0, empty image, the static buffer
(zero-initialised, `MAXSIZE` bytes).  The indeterminate initial values of
`nc`, `eof` and `bs` are taken as zero; each is assigned before it is used. -/
def initMain : Main :=
  { pos := 0, image := [], buffer := List.replicate MAXSIZE 0, nc := 0, eof := false
    bs := 0, diag := [] }

/-- The whole program (lines 88-251): the image file and the diagnostic lines. -/
def timage (src : List (List Nat)) (fuel : Nat) (sched : List Bool) :
    Option (List Nat × List String) :=
  match volumeLoop src fuel fuel sched initMain with
  | none => none
  | some m => some (m.image ++ PutCount 0, m.diag)

/-! ## Reference format and the serial image -/

/-- The bytes of a tape-mark record (lines 18, 22 of the header comment). -/
def tapeMark : List Nat := [0, 0, 0, 0]

/-- A count as four little-endian bytes. -/
def le4 (n : Nat) : List Nat :=
  [n % 256, (n / 256) % 256, (n / 65536) % 256, (n / 16777216) % 256]

/-- The pad of a payload of `n` bytes: one zero byte iff `n` is odd. -/
def pad (n : Nat) : List Nat := if n % 2 ≠ 0 then [0] else []

/-- The record of a block in the documented format (`tapeMark` for the
zero-length block). -/
def frame (b : List Nat) : List Nat :=
  if b.length = 0 then tapeMark else le4 b.length ++ b ++ pad b.length ++ le4 b.length

/-- The `i`-th physical read of a pass that starts at offset `p0`. -/
def blk (src : List (List Nat)) (p0 i : Nat) : List Nat := readData src (p0 + i)

/-- The records of the first `h` reads of a pass, in read order: what a
single-threaded loop that reads a block and frames it before it reads the
next one appends to the image. -/
def written (src : List (List Nat)) (p0 : Nat) : Nat → List Nat
  | 0 => []
  | h + 1 => written src p0 h ++ frame (blk src p0 h)

/-- What the writer of block `h - 1` has appended when its record is complete
(nothing in the first half-cycle, where no block has been read yet). -/
def partFull (src : List (List Nat)) (p0 h : Nat) : List Nat :=
  if h = 0 then [] else frame (blk src p0 (h - 1))

/-- The image of a single-threaded pass over the reads `reads`: read a block,
frame it, then read the next one, until a zero-length read (whose tape mark
is written). -/
def serialFrom : List (List Nat) → List Nat
  | [] => PutCount 0
  | b :: rest =>
    let data := b.take MAXSIZE
    if data.length = 0 then PutCount 0
    else
      PutCount data.length ++ data ++ (if data.length % 2 ≠ 0 then [0] else []) ++
        PutCount data.length ++ serialFrom rest

/-! ## The invariant of the handshake

A pass is a sequence of half-cycles `h = 0, 1, 2, ...`.  In half-cycle `h` one
unit (the parent when `h` is even) reads block `h` while the other writes
block `h - 1`.  Each predicate below describes one unit in one role by its
own variables, with the tokens waiting for it (`pin`, `cin`), the tokens it
has sent in this half-cycle (`pout`, `cout`), and the number of its steps
`idx` in the half-cycle. -/

/-- The variables of a unit that has read block `h`. -/
def AfterRead (src : List (List Nat)) (p0 h : Nat) (nc : Nat) (eof : Bool)
    (buf : List Nat) : Prop :=
  nc = (blk src p0 h).length ∧ buf.take nc = blk src p0 h ∧ buf.length = MAXSIZE ∧
    eof = ((blk src p0 h).length == 0)

/-- The parent reads block `h` (`h` even). -/
inductive PReader (src : List (List Nat)) (p0 h : Nat) (pc : PPc) (nc : Nat) (eof : Bool)
    (buf : List Nat) (count bs : Nat) : Nat → Nat → List Bool → List Bool → Prop
  | recvR : pc = pRecvR → count + 1 = h → bs = (blk src p0 0).length →
      buf.length = MAXSIZE → PReader src p0 h pc nc eof buf count bs 0 0 [false] []
  | read : pc = pRead → count = h → (h ≠ 0 → bs = (blk src p0 0).length) →
      buf.length = MAXSIZE → PReader src p0 h pc nc eof buf count bs 1 0 [] []
  | sendR : pc = pSendR → AfterRead src p0 h nc eof buf →
      count = (if (blk src p0 h).length = 0 then h else h + 1) →
      bs = (blk src p0 0).length → PReader src p0 h pc nc eof buf count bs 2 1 [] []
  | recvW : pc = pRecvW → AfterRead src p0 h nc eof buf →
      count = (if (blk src p0 h).length = 0 then h else h + 1) →
      bs = (blk src p0 0).length → PReader src p0 h pc nc eof buf count bs 3 1 [] [eof]

/-- The child reads block `h` (`h` odd). -/
inductive CReader (src : List (List Nat)) (p0 h : Nat) (pc : CPc) (nc : Nat) (eof : Bool)
    (buf : List Nat) : Nat → Nat → List Bool → List Bool → Prop
  | recvR : pc = cRecvR → buf.length = MAXSIZE →
      CReader src p0 h pc nc eof buf 0 0 [false] []
  | read : pc = cRead → buf.length = MAXSIZE → CReader src p0 h pc nc eof buf 1 0 [] []
  | sendR : pc = cSendR → AfterRead src p0 h nc eof buf →
      CReader src p0 h pc nc eof buf 2 1 [] []
  | recvW : pc = cRecvW → AfterRead src p0 h nc eof buf →
      CReader src p0 h pc nc eof buf 3 1 [] [eof]

/-- The parent writes block `h - 1` (`h` odd). -/
inductive PWriter (src : List (List Nat)) (p0 h : Nat) (pc : PPc) (nc : Nat) (eof : Bool)
    (buf : List Nat) (count bs : Nat) : Nat → List Nat → List Bool → List Bool → Prop
  | recvW : pc = pRecvW → AfterRead src p0 (h - 1) nc eof buf → count = h →
      bs = (blk src p0 0).length → PWriter src p0 h pc nc eof buf count bs 0 [] [false] []
  | put1 : pc = pPut1 → AfterRead src p0 (h - 1) nc false buf → eof = false → count = h →
      bs = (blk src p0 0).length → PWriter src p0 h pc nc eof buf count bs 1 [] [] []
  | data : pc = pData → AfterRead src p0 (h - 1) nc false buf → eof = false → count = h →
      bs = (blk src p0 0).length →
      PWriter src p0 h pc nc eof buf count bs 2 (le4 nc) [] []
  | put2 : pc = pPut2 → nc = (blk src p0 (h - 1)).length → buf.length = MAXSIZE →
      eof = false → count = h → bs = (blk src p0 0).length →
      PWriter src p0 h pc nc eof buf count bs 3 (le4 nc ++ blk src p0 (h - 1) ++ pad nc) [] []
  | sendW : pc = pSendW → buf.length = MAXSIZE → eof = false → count = h →
      bs = (blk src p0 0).length →
      PWriter src p0 h pc nc eof buf count bs 4 (partFull src p0 h) [] []
  | recvR : pc = pRecvR → buf.length = MAXSIZE → count = h →
      bs = (blk src p0 0).length →
      PWriter src p0 h pc nc eof buf count bs 5 (partFull src p0 h) [] [false]

/-- The child writes block `h - 1` (`h` even); in half-cycle 0 it has nothing
to write and starts at line 121. -/
inductive CWriter (src : List (List Nat)) (p0 h : Nat) (pc : CPc) (nc : Nat) (eof : Bool)
    (buf : List Nat) : Nat → List Nat → List Bool → List Bool → Prop
  | recvW : pc = cRecvW → h ≠ 0 → AfterRead src p0 (h - 1) nc eof buf →
      CWriter src p0 h pc nc eof buf 0 [] [false] []
  | put1 : pc = cPut1 → h ≠ 0 → AfterRead src p0 (h - 1) nc false buf → eof = false →
      CWriter src p0 h pc nc eof buf 1 [] [] []
  | data : pc = cData → h ≠ 0 → AfterRead src p0 (h - 1) nc false buf → eof = false →
      CWriter src p0 h pc nc eof buf 2 (le4 nc) [] []
  | put2 : pc = cPut2 → h ≠ 0 → nc = (blk src p0 (h - 1)).length → buf.length = MAXSIZE →
      eof = false →
      CWriter src p0 h pc nc eof buf 3 (le4 nc ++ blk src p0 (h - 1) ++ pad nc) [] []
  | sendW : pc = cSendW → buf.length = MAXSIZE → eof = false →
      CWriter src p0 h pc nc eof buf 4 (partFull src p0 h) [] []
  | recvR : pc = cRecvR → buf.length = MAXSIZE →
      CWriter src p0 h pc nc eof buf 5 (partFull src p0 h) [] [false]

/-- The parent has read the tape mark as block `h` (`h` even). -/
inductive PMark (src : List (List Nat)) (p0 h : Nat) (pc : PPc) (nc : Nat) (buf : List Nat)
    (count bs : Nat) : Nat → List Nat → List Bool → Prop
  | recvW : pc = pRecvW → nc = 0 → buf.length = MAXSIZE → count = h →
      bs = (blk src p0 0).length → PMark src p0 h pc nc buf count bs 0 [] [false]
  | put1 : pc = pPut1 → nc = 0 → buf.length = MAXSIZE → count = h →
      bs = (blk src p0 0).length → PMark src p0 h pc nc buf count bs 1 [] []
  | wait : pc = pWait → buf.length = MAXSIZE → count = h →
      bs = (blk src p0 0).length → PMark src p0 h pc nc buf count bs 2 tapeMark []
  | done : pc = pDone → buf.length = MAXSIZE → count = h →
      bs = (blk src p0 0).length → PMark src p0 h pc nc buf count bs 3 tapeMark []

/-- The child is told that the parent has read the tape mark. -/
inductive CTold (pc : CPc) (eof : Bool) : Nat → List Bool → Prop
  | recvR : pc = cRecvR → CTold pc eof 0 [true]
  | exit : pc = cExit → eof = true → CTold pc eof 1 []

/-- The child has read the tape mark as block `h` (`h` odd). -/
inductive CMark (pc : CPc) (nc : Nat) : Nat → List Nat → List Bool → Prop
  | recvW : pc = cRecvW → nc = 0 → CMark pc nc 0 [] [false]
  | put1 : pc = cPut1 → nc = 0 → CMark pc nc 1 [] []
  | exit : pc = cExit → CMark pc nc 2 tapeMark []

/-- The parent is told that the child has read the tape mark. -/
inductive PTold (src : List (List Nat)) (p0 h : Nat) (pc : PPc) (eof : Bool) (buf : List Nat)
    (count bs : Nat) : Nat → List Bool → Prop
  | recvR : pc = pRecvR → buf.length = MAXSIZE → count = h →
      bs = (blk src p0 0).length → PTold src p0 h pc eof buf count bs 0 [true]
  | wait : pc = pWait → eof = true → buf.length = MAXSIZE → count = h →
      bs = (blk src p0 0).length → PTold src p0 h pc eof buf count bs 1 []
  | done : pc = pDone → eof = true → buf.length = MAXSIZE → count = h →
      bs = (blk src p0 0).length → PTold src p0 h pc eof buf count bs 2 []

/-- The invariant of a pass that starts at offset `p0` with the image `base`:
`s` is a state after `n` steps.  Blocks `0 .. h - 1` are data blocks; the
image is `base`, the records of the blocks written so far, and the part of
the record being written. -/
inductive Inv (src : List (List Nat)) (p0 : Nat) (base : List Nat) (n : Nat) (s : State) : Prop
  | evenCycle (h a nrd b : Nat) (pin pout cin cout : List Bool) (part : List Nat) :
      h % 2 = 0 → (∀ i, i < h → (blk src p0 i).length ≠ 0) →
      PReader src p0 h s.ppc s.pnc s.peof s.pbuf s.count s.bs a nrd pin pout →
      CWriter src p0 h s.cpc s.cnc s.ceof s.cbuf b part cin cout →
      s.pipe0 = cin ++ pout → s.pipe1 = pin ++ cout → s.pos = p0 + h + nrd →
      s.image = base ++ written src p0 (h - 1) ++ part → n + 5 = 8 * h + a + b →
      Inv src p0 base n s
  | oddCycle (h a nrd b : Nat) (pin pout cin cout : List Bool) (part : List Nat) :
      h % 2 = 1 → (∀ i, i < h → (blk src p0 i).length ≠ 0) →
      CReader src p0 h s.cpc s.cnc s.ceof s.cbuf a nrd cin cout →
      PWriter src p0 h s.ppc s.pnc s.peof s.pbuf s.count s.bs b part pin pout →
      s.pipe0 = cin ++ pout → s.pipe1 = pin ++ cout → s.pos = p0 + h + nrd →
      s.image = base ++ written src p0 (h - 1) ++ part → n + 5 = 8 * h + a + b →
      Inv src p0 base n s
  | parentMark (h a b : Nat) (pin cin : List Bool) (mark : List Nat) :
      h % 2 = 0 → (∀ i, i < h → (blk src p0 i).length ≠ 0) → (blk src p0 h).length = 0 →
      PMark src p0 h s.ppc s.pnc s.pbuf s.count s.bs a mark pin → CTold s.cpc s.ceof b cin →
      s.pipe0 = cin → s.pipe1 = pin → s.pos = p0 + h + 1 →
      s.image = base ++ written src p0 h ++ mark → n + 5 = 8 * h + 8 + a + b →
      (a = 3 → b = 1) → Inv src p0 base n s
  | childMark (h a b : Nat) (pin cin : List Bool) (mark : List Nat) :
      h % 2 = 1 → (∀ i, i < h → (blk src p0 i).length ≠ 0) → (blk src p0 h).length = 0 →
      PTold src p0 h s.ppc s.peof s.pbuf s.count s.bs a pin → CMark s.cpc s.cnc b mark cin →
      s.pipe0 = cin → s.pipe1 = pin → s.pos = p0 + h + 1 →
      s.image = base ++ written src p0 h ++ mark → n + 5 = 8 * h + 8 + a + b →
      (a = 2 → b = 2) → Inv src p0 base n s

/-! ## Executions, monitors, decoder -/

/-- Execution of a pass: `Reach src s0 tr s` when `s` is reached from `s0` by
the steps recorded in `tr`, latest first; an entry is the unit that moved
(`true` the parent, `false` the child) and the state it moved from. -/
inductive Reach (src : List (List Nat)) (s0 : State) : List (Bool × State) → State → Prop
  | init : Reach src s0 [] s0
  | step (who : Bool) (tr : List (Bool × State)) (s s1 : State) :
      Reach src s0 tr s → step src who s = some s1 → Reach src s0 ((who, s) :: tr) s1

/-- The step of `unit` from `s` is its physical read of the source (line 174
for the parent, line 134 for the child). -/
def isRead (unit : Bool) (s : State) : Bool :=
  if unit then decide (s.ppc = pRead) else decide (s.cpc = cRead)

/-- The step of `unit` from `s` receives a token from its peer (lines 190 and
217 for the parent, lines 128 and 146 for the child). -/
def isRecv (unit : Bool) (s : State) : Bool :=
  if unit then decide (s.ppc = pRecvW ∨ s.ppc = pRecvR)
  else decide (s.cpc = cRecvR ∨ s.cpc = cRecvW)

/-- Number of physical reads `unit` has performed since the last token it
received, along a trace (latest step first). -/
def readsSinceRecv (unit : Bool) : List (Bool × State) → Nat
  | [] => 0
  | (who, s) :: tr =>
    if who = unit then
      if isRecv unit s then 0
      else if isRead unit s then readsSinceRecv unit tr + 1
      else readsSinceRecv unit tr
    else readsSinceRecv unit tr

/-- The parent is inside its writes to the image file (lines 195-206). -/
def inWriteP (pc : PPc) : Prop := pc = pPut1 ∨ pc = pData ∨ pc = pPut2

/-- The child is inside its writes to the image file (lines 151-162). -/
def inWriteC (pc : CPc) : Prop := pc = cPut1 ∨ pc = cData ∨ pc = cPut2

/-- A decoded record of an image file. -/
inductive Rec
  | mark
  | data (payload : List Nat)
  deriving DecidableEq, Repr

/-- The record a physical read stands for. -/
def toRec (b : List Nat) : Rec := if b.length = 0 then Rec.mark else Rec.data b

/-- Decoder of the documented record format (header comment, lines 17-23):
a 4-byte little-endian count; count 0 is a tape mark; otherwise count payload
bytes, one pad byte iff the count is odd, and the count again.  `none` on a
truncated image or when the two counts differ. -/
def decode : Nat → List Nat → Option (List Rec)
  | _, [] => some []
  | 0, _ :: _ => none
  | fuel + 1, b0 :: b1 :: b2 :: b3 :: rest =>
    let n := b0 + 256 * b1 + 65536 * b2 + 16777216 * b3
    if n = 0 then (decode fuel rest).map (fun rs => Rec.mark :: rs)
    else
      match rest.drop (n + n % 2) with
      | c0 :: c1 :: c2 :: c3 :: rest2 =>
        if c0 + 256 * c1 + 65536 * c2 + 16777216 * c3 = n then
          (decode fuel rest2).map (fun rs => Rec.data (rest.take n) :: rs)
        else none
      | _ => none
  | _ + 1, _ => none

/-- Decoding of a whole image file. -/
def decodeImage (image : List Nat) : Option (List Rec) := decode image.length image

/-- The records of a list of blocks. -/
def framesOf : List (List Nat) → List Nat
  | [] => []
  | b :: bs => frame b ++ framesOf bs

/-- The physical reads of a list of volumes: the data blocks of each volume
and the zero-length read that ends it. -/
def sourceOf : List (List (List Nat)) → List (List Nat)
  | [] => []
  | v :: vs => v ++ [] :: sourceOf vs

/-- The image of a list of volumes: the data records of each volume and the
tape mark that ends it. -/
def imageOf : List (List (List Nat)) → List Nat
  | [] => []
  | v :: vs => framesOf v ++ tapeMark ++ imageOf vs

/-- The diagnostic line `<count> records, blocksize <bs>`. -/
def diagLine (n bs : Nat) : String := s!"{n} records, blocksize {bs}\n"

/-- The diagnostic lines of a list of volumes that have a data block each:
the number of blocks of the volume and the length of its first block. -/
def diagOf : List (List (List Nat)) → List String
  | [] => []
  | v :: vs => diagLine v.length (v.headD []).length :: diagOf vs

/-- The data blocks of a source: length between 1 and `MAXSIZE`. -/
def DataBlocks (v : List (List Nat)) : Prop := ∀ b, b ∈ v → 1 ≤ b.length ∧ b.length ≤ MAXSIZE

/-- The reads of `src` from offset `p` on are those of the volumes `vols` (the
data blocks of each, then its zero-length read), followed by a zero-length
read. -/
def OnTape (src : List (List Nat)) : Nat → List (List (List Nat)) → Prop
  | p, [] => readData src p = []
  | p, v :: vs =>
    (∀ i, i < v.length → readData src (p + i) = v.getD i []) ∧
      readData src (p + v.length) = [] ∧ OnTape src (p + v.length + 1) vs

/-- A state in which both units hold the 5-byte block `[1, 2, 3, 4, 5]` and
are about to write its record (used to instantiate the framing theorems). -/
def exampleWriter : State :=
  { pos := 1, image := [9], pipe0 := [], pipe1 := []
    ppc := pPut1, pnc := 5, peof := false
    pbuf := readInto (List.replicate MAXSIZE 0) [1, 2, 3, 4, 5], count := 1, bs := 5
    cpc := cPut1, cnc := 5, ceof := false
    cbuf := readInto (List.replicate MAXSIZE 0) [1, 2, 3, 4, 5] }

/-- The volumes that `timage` copies: those before the first volume without
data block (end-of-medium is two consecutive tape marks, header comment lines
18-19, and the loop of lines 91-244 stops there). -/
def processed : List (List (List Nat)) → List (List (List Nat))
  | [] => []
  | v :: vs => if v = [] then [] else v :: processed vs

/-- The diagnostic line that the spec gives for a volume with a data block:
its number of blocks and the length of its first block. -/
def volumeLine (v : List (List Nat)) : String := diagLine v.length (v.headD []).length

/-! ## Basic facts on the framing code -/

theorem MAXSIZE_eq : MAXSIZE = 20480 := by decide

theorem PutCount_eq_le4 (nc : Nat) : PutCount nc = le4 nc := by
  have h : ∀ x : Nat, x &&& 0xFF = x % 256 := fun x => Nat.and_pow_two_sub_one_eq_mod x 8
  simp only [PutCount, le4, h, Nat.shiftRight_eq_div_pow]

theorem readData_length_le (src : List (List Nat)) (pos : Nat) :
    (readData src pos).length ≤ MAXSIZE := by
  simp [readData]

theorem readInto_length (buf data : List Nat) (h : data.length ≤ buf.length) :
    (readInto buf data).length = buf.length := by
  simp [readInto]; omega

theorem readInto_take (buf data : List Nat) :
    (readInto buf data).take data.length = data := by
  simp [readInto]

theorem take_set_succ (buf : List Nat) (n : Nat) (v : Nat) (h : n < buf.length) :
    (buf.set n v).take (n + 1) = buf.take n ++ [v] := by
  induction buf generalizing n with
  | nil => simp at h
  | cons x xs ih =>
    cases n with
    | zero => simp
    | succ k =>
      simp only [List.length_cons, Nat.add_lt_add_iff_right] at h
      simp [List.set, List.take, ih k h]

theorem padEven_spec (buf b : List Nat) (nc : Nat) (hlen : buf.length = MAXSIZE)
    (hnc : nc = b.length) (hle : nc ≤ MAXSIZE) (htake : buf.take nc = b) :
    ∃ buf1 nx, padEven buf nc = some (buf1, nx) ∧ buf1.take nx = b ++ pad nc ∧
      buf1.length = MAXSIZE ∧ nx = nc + nc % 2 ∧ nx ≤ MAXSIZE := by
  have hM := MAXSIZE_eq
  by_cases hodd : nc % 2 ≠ 0
  · have hlt : nc < buf.length := by omega
    refine ⟨buf.set nc 0, nc + 1, ?_, ?_, ?_, ?_, ?_⟩
    · simp [padEven, hodd, hlt]
    · rw [take_set_succ buf nc 0 hlt, htake]; simp [pad, hodd]
    · simp [hlen]
    · omega
    · omega
  · have hev : nc % 2 = 0 := by omega
    refine ⟨buf, nc, ?_, ?_, hlen, ?_, hle⟩
    · simp [padEven, hev, hlen, hle]
    · simp [pad, hev, htake]
    · omega

theorem written_partFull (src : List (List Nat)) (p0 h : Nat) :
    written src p0 (h - 1) ++ partFull src p0 h = written src p0 h := by
  cases h with
  | zero => simp [partFull, written]
  | succ k => simp [partFull, written]

/-! ## Every step keeps the invariant -/

theorem partFull_eq (src : List (List Nat)) (p0 h : Nat) (hh : h ≠ 0)
    (hz : (blk src p0 (h - 1)).length ≠ 0) :
    partFull src p0 h = le4 (blk src p0 (h - 1)).length ++ blk src p0 (h - 1) ++
      pad (blk src p0 (h - 1)).length ++ le4 (blk src p0 (h - 1)).length := by
  simp [partFull, frame, hh, hz]

theorem afterRead_false {src : List (List Nat)} {p0 h nc : Nat} {eof : Bool} {buf : List Nat}
    (hAR : AfterRead src p0 h nc eof buf) (hz : (blk src p0 h).length ≠ 0) :
    AfterRead src p0 h nc false buf :=
  ⟨hAR.1, hAR.2.1, hAR.2.2.1, by simp [hz]⟩

theorem afterRead_le {src : List (List Nat)} {p0 h nc : Nat} {eof : Bool} {buf : List Nat}
    (hAR : AfterRead src p0 h nc eof buf) : nc ≤ MAXSIZE := by
  rw [hAR.1]; exact readData_length_le _ _

theorem ne_succ {src : List (List Nat)} {p0 h : Nat}
    (hne : ∀ i, i < h → (blk src p0 i).length ≠ 0) (hz : (blk src p0 h).length ≠ 0) :
    ∀ i, i < h + 1 → (blk src p0 i).length ≠ 0 := by
  intro i hi
  rcases Nat.lt_succ_iff_lt_or_eq.mp hi with h1 | h1
  · exact hne i h1
  · subst h1; exact hz

theorem afterRead_readInto (src : List (List Nat)) (p0 h pos : Nat) (buf : List Nat)
    (hpos : pos = p0 + h) (hlen : buf.length = MAXSIZE) :
    AfterRead src p0 h (readData src pos).length ((readData src pos).length == 0)
      (readInto buf (readData src pos)) := by
  subst hpos
  refine ⟨rfl, ?_, ?_, rfl⟩
  · exact readInto_take _ _
  · rw [readInto_length _ _ (by rw [hlen]; exact readData_length_le _ _), hlen]

theorem inv_parent_even {src : List (List Nat)} {p0 : Nat} {base : List Nat} {n : Nat}
    {s s1 : State} (h a nrd b : Nat) (pin pout cin cout : List Bool) (part : List Nat)
    (hpar : h % 2 = 0) (hne : ∀ i, i < h → (blk src p0 i).length ≠ 0)
    (hP : PReader src p0 h s.ppc s.pnc s.peof s.pbuf s.count s.bs a nrd pin pout)
    (hC : CWriter src p0 h s.cpc s.cnc s.ceof s.cbuf b part cin cout)
    (h0 : s.pipe0 = cin ++ pout) (h1 : s.pipe1 = pin ++ cout) (hpos : s.pos = p0 + h + nrd)
    (himg : s.image = base ++ written src p0 (h - 1) ++ part) (hn : n + 5 = 8 * h + a + b)
    (hstep : stepParent src s = some s1) : Inv src p0 base (n + 1) s1 := by
  cases hP with
  | recvR hpc hcnt hbs hbl =>
    simp only [stepParent, hpc, h1, List.singleton_append, Option.some.injEq] at hstep
    subst hstep
    exact Inv.evenCycle h 1 0 b [] [] cin cout part hpar hne
      (PReader.read rfl (by simpa using hcnt) (fun _ => hbs) hbl) hC h0 rfl hpos himg (by omega)
  | read hpc hcnt hbs hbl =>
    simp only [stepParent, hpc, Option.some.injEq] at hstep
    subst hstep
    have hAR := afterRead_readInto src p0 h s.pos s.pbuf (by omega) hbl
    have hp : readData src s.pos = blk src p0 h := by rw [hpos]; rfl
    refine Inv.evenCycle h 2 1 b [] [] cin cout part hpar hne
      (PReader.sendR rfl hAR ?_ ?_) hC h0 h1 (by simp [hpos]) himg (by omega)
    · simp only [hp, hcnt]
    · simp only [hp, hcnt]
      by_cases hz : h = 0
      · subst hz; simp
      · simp [hz, hbs hz]
  | sendR hpc hAR hcnt hbs =>
    simp only [stepParent, hpc, Option.some.injEq] at hstep
    subst hstep
    exact Inv.evenCycle h 3 1 b [] [s.peof] cin cout part hpar hne
      (PReader.recvW rfl hAR hcnt hbs) hC (by simp [h0]) h1 hpos himg (by omega)
  | recvW hpc hAR hcnt hbs =>
    cases hC with
    | recvW hc _ _ => simp [stepParent, hpc, h1] at hstep
    | put1 hc _ _ _ => simp [stepParent, hpc, h1] at hstep
    | data hc _ _ _ => simp [stepParent, hpc, h1] at hstep
    | put2 hc _ _ _ _ => simp [stepParent, hpc, h1] at hstep
    | sendW hc _ _ => simp [stepParent, hpc, h1] at hstep
    | recvR hc hcl =>
      simp only [stepParent, hpc, h1, List.nil_append, Option.some.injEq] at hstep
      subst hstep
      have himg1 : s.image = base ++ written src p0 h := by
        rw [himg, List.append_assoc, written_partFull]
      obtain ⟨hnc, htk, hbl, heof⟩ := hAR
      by_cases hz : (blk src p0 h).length = 0
      · refine Inv.parentMark h 1 0 [] [true] [] hpar hne hz
          (PMark.put1 rfl (by simp [hnc, hz]) hbl (by simp [hcnt, hz]) hbs)
          (CTold.recvR hc) (by simp [h0, heof, hz]) rfl hpos (by simp [himg1]) (by omega)
          (by omega)
      · have hne1 : ∀ i, i < h + 1 → (blk src p0 i).length ≠ 0 := by
          intro i hi
          rcases Nat.lt_succ_iff_lt_or_eq.mp hi with h1 | h1
          · exact hne i h1
          · subst h1; exact hz
        refine Inv.oddCycle (h + 1) 0 0 1 [] [] [false] [] [] (by omega) hne1
          (CReader.recvR hc hcl)
          (PWriter.put1 rfl ⟨hnc, htk, hbl, by simp [hz]⟩ rfl (by simp [hcnt, hz]) hbs)
          (by simp [h0, heof, hz]) rfl (by simp [hpos]; omega) (by simp [himg1]) (by omega)


theorem inv_child_even {src : List (List Nat)} {p0 : Nat} {base : List Nat} {n : Nat}
    {s s1 : State} (h a nrd b : Nat) (pin pout cin cout : List Bool) (part : List Nat)
    (hpar : h % 2 = 0) (hne : ∀ i, i < h → (blk src p0 i).length ≠ 0)
    (hP : PReader src p0 h s.ppc s.pnc s.peof s.pbuf s.count s.bs a nrd pin pout)
    (hC : CWriter src p0 h s.cpc s.cnc s.ceof s.cbuf b part cin cout)
    (h0 : s.pipe0 = cin ++ pout) (h1 : s.pipe1 = pin ++ cout) (hpos : s.pos = p0 + h + nrd)
    (himg : s.image = base ++ written src p0 (h - 1) ++ part) (hn : n + 5 = 8 * h + a + b)
    (hstep : stepChild src s = some s1) : Inv src p0 base (n + 1) s1 := by
  cases hC with
  | recvW hc hh hAR =>
    simp only [stepChild, hc, h0, List.singleton_append, Option.some.injEq] at hstep
    subst hstep
    have hz := hne (h - 1) (by omega)
    exact Inv.evenCycle h a nrd 1 pin pout [] [] [] hpar hne hP
      (CWriter.put1 rfl hh (afterRead_false hAR hz) rfl) rfl h1 hpos himg (by omega)
  | put1 hc hh hAR heof =>
    have hz := hne (h - 1) (by omega)
    have hnz : s.cnc ≠ 0 := by rw [hAR.1]; exact hz
    simp only [stepChild, hc, hnz, if_false, Option.some.injEq] at hstep
    subst hstep
    exact Inv.evenCycle h a nrd 2 pin pout [] [] (le4 s.cnc) hpar hne hP
      (CWriter.data rfl hh hAR heof) h0 h1 hpos
      (by simp [himg, PutCount_eq_le4]) (by omega)
  | data hc hh hAR heof =>
    obtain ⟨buf1, nx, hpe, htk, hbl, _, _⟩ :=
      padEven_spec s.cbuf (blk src p0 (h - 1)) s.cnc hAR.2.2.1 hAR.1 (afterRead_le hAR) hAR.2.1
    simp only [stepChild, hc, hpe, Option.some.injEq] at hstep
    subst hstep
    exact Inv.evenCycle h a nrd 3 pin pout [] [] _ hpar hne hP
      (CWriter.put2 rfl hh hAR.1 hbl heof) h0 h1 hpos
      (by simp [himg, htk]) (by omega)
  | put2 hc hh hnc hbl heof =>
    have hz := hne (h - 1) (by omega)
    simp only [stepChild, hc, Option.some.injEq] at hstep
    subst hstep
    exact Inv.evenCycle h a nrd 4 pin pout [] [] _ hpar hne hP
      (CWriter.sendW rfl hbl heof) h0 h1 hpos
      (by simp [himg, PutCount_eq_le4, partFull_eq src p0 h hh hz, hnc]) (by omega)
  | sendW hc hbl heof =>
    simp only [stepChild, hc, Option.some.injEq] at hstep
    subst hstep
    exact Inv.evenCycle h a nrd 5 pin pout [] [false] _ hpar hne hP
      (CWriter.recvR rfl hbl) h0 (by simp [h1, heof]) hpos himg (by omega)
  | recvR hc hbl =>
    cases hP with
    | recvR hpc _ _ _ => simp [stepChild, hc, h0] at hstep
    | read hpc _ _ _ => simp [stepChild, hc, h0] at hstep
    | sendR hpc _ _ _ => simp [stepChild, hc, h0] at hstep
    | recvW hpc hAR hcnt hbs =>
      have himg1 : s.image = base ++ written src p0 h := by
        rw [himg, List.append_assoc, written_partFull]
      by_cases hz : (blk src p0 h).length = 0
      · have he : s.peof = true := by rw [hAR.2.2.2]; simp [hz]
        simp only [stepChild, hc, h0, he, List.nil_append, if_true,
          Option.some.injEq] at hstep
        subst hstep
        exact Inv.parentMark h 0 1 [false] [] [] hpar hne hz
          (PMark.recvW hpc (by rw [hAR.1, hz]) hAR.2.2.1 (by simp [hcnt, hz]) hbs)
          (CTold.exit rfl rfl) rfl (by simp [h1]) hpos (by simp [himg1]) (by omega) (by omega)
      · have he : s.peof = false := by rw [hAR.2.2.2]; simp [hz]
        simp only [stepChild, hc, h0, he, List.nil_append, Bool.false_eq_true, if_false,
          Option.some.injEq] at hstep
        subst hstep
        exact Inv.oddCycle (h + 1) 1 0 0 [false] [] [] [] [] (by omega) (ne_succ hne hz)
          (CReader.read rfl hbl)
          (PWriter.recvW hpc (afterRead_false hAR hz) (by simp [hcnt, hz]) hbs)
          rfl (by simp [h1]) (by simp [hpos]; omega) (by simp [himg1]) (by omega)

theorem inv_parent_odd {src : List (List Nat)} {p0 : Nat} {base : List Nat} {n : Nat}
    {s s1 : State} (h a nrd b : Nat) (pin pout cin cout : List Bool) (part : List Nat)
    (hpar : h % 2 = 1) (hne : ∀ i, i < h → (blk src p0 i).length ≠ 0)
    (hC : CReader src p0 h s.cpc s.cnc s.ceof s.cbuf a nrd cin cout)
    (hP : PWriter src p0 h s.ppc s.pnc s.peof s.pbuf s.count s.bs b part pin pout)
    (h0 : s.pipe0 = cin ++ pout) (h1 : s.pipe1 = pin ++ cout) (hpos : s.pos = p0 + h + nrd)
    (himg : s.image = base ++ written src p0 (h - 1) ++ part) (hn : n + 5 = 8 * h + a + b)
    (hstep : stepParent src s = some s1) : Inv src p0 base (n + 1) s1 := by
  have hh : h ≠ 0 := by omega
  have hz := hne (h - 1) (by omega)
  cases hP with
  | recvW hpc hAR hcnt hbs =>
    simp only [stepParent, hpc, h1, List.singleton_append, Option.some.injEq] at hstep
    subst hstep
    exact Inv.oddCycle h a nrd 1 [] [] cin cout [] hpar hne hC
      (PWriter.put1 rfl (afterRead_false hAR hz) rfl hcnt hbs) h0 rfl hpos himg (by omega)
  | put1 hpc hAR heof hcnt hbs =>
    have hnz : s.pnc ≠ 0 := by rw [hAR.1]; exact hz
    simp only [stepParent, hpc, hnz, if_false, Option.some.injEq] at hstep
    subst hstep
    exact Inv.oddCycle h a nrd 2 [] [] cin cout (le4 s.pnc) hpar hne hC
      (PWriter.data rfl hAR heof hcnt hbs) h0 h1 hpos
      (by simp [himg, PutCount_eq_le4]) (by omega)
  | data hpc hAR heof hcnt hbs =>
    obtain ⟨buf1, nx, hpe, htk, hbl, _, _⟩ :=
      padEven_spec s.pbuf (blk src p0 (h - 1)) s.pnc hAR.2.2.1 hAR.1 (afterRead_le hAR) hAR.2.1
    simp only [stepParent, hpc, hpe, Option.some.injEq] at hstep
    subst hstep
    exact Inv.oddCycle h a nrd 3 [] [] cin cout _ hpar hne hC
      (PWriter.put2 rfl hAR.1 hbl heof hcnt hbs) h0 h1 hpos
      (by simp [himg, htk]) (by omega)
  | put2 hpc hnc hbl heof hcnt hbs =>
    simp only [stepParent, hpc, Option.some.injEq] at hstep
    subst hstep
    exact Inv.oddCycle h a nrd 4 [] [] cin cout _ hpar hne hC
      (PWriter.sendW rfl hbl heof hcnt hbs) h0 h1 hpos
      (by simp [himg, PutCount_eq_le4, partFull_eq src p0 h hh hz, hnc]) (by omega)
  | sendW hpc hbl heof hcnt hbs =>
    simp only [stepParent, hpc, Option.some.injEq] at hstep
    subst hstep
    exact Inv.oddCycle h a nrd 5 [] [false] cin cout _ hpar hne hC
      (PWriter.recvR rfl hbl hcnt hbs) (by simp [h0, heof]) h1 hpos himg (by omega)
  | recvR hpc hbl hcnt hbs =>
    cases hC with
    | recvR hc _ => simp [stepParent, hpc, h1] at hstep
    | read hc _ => simp [stepParent, hpc, h1] at hstep
    | sendR hc _ => simp [stepParent, hpc, h1] at hstep
    | recvW hc hAR =>
      have himg1 : s.image = base ++ written src p0 h := by
        rw [himg, List.append_assoc, written_partFull]
      by_cases hz1 : (blk src p0 h).length = 0
      · have he : s.ceof = true := by rw [hAR.2.2.2]; simp [hz1]
        simp only [stepParent, hpc, h1, he, List.nil_append, if_true,
          Option.some.injEq] at hstep
        subst hstep
        exact Inv.childMark h 1 0 [] [false] [] hpar hne hz1
          (PTold.wait rfl rfl hbl hcnt hbs)
          (CMark.recvW hc (by rw [hAR.1, hz1])) (by simp [h0]) rfl hpos (by simp [himg1])
          (by omega) (by omega)
      · have he : s.ceof = false := by rw [hAR.2.2.2]; simp [hz1]
        simp only [stepParent, hpc, h1, he, List.nil_append, Bool.false_eq_true, if_false,
          Option.some.injEq] at hstep
        subst hstep
        exact Inv.evenCycle (h + 1) 1 0 0 [] [] [false] [] [] (by omega) (ne_succ hne hz1)
          (PReader.read rfl (by simp [hcnt]) (fun _ => hbs) hbl)
          (CWriter.recvW hc (by omega) (afterRead_false hAR hz1))
          (by simp [h0]) rfl (by simp [hpos]; omega) (by simp [himg1]) (by omega)

theorem inv_child_odd {src : List (List Nat)} {p0 : Nat} {base : List Nat} {n : Nat}
    {s s1 : State} (h a nrd b : Nat) (pin pout cin cout : List Bool) (part : List Nat)
    (hpar : h % 2 = 1) (hne : ∀ i, i < h → (blk src p0 i).length ≠ 0)
    (hC : CReader src p0 h s.cpc s.cnc s.ceof s.cbuf a nrd cin cout)
    (hP : PWriter src p0 h s.ppc s.pnc s.peof s.pbuf s.count s.bs b part pin pout)
    (h0 : s.pipe0 = cin ++ pout) (h1 : s.pipe1 = pin ++ cout) (hpos : s.pos = p0 + h + nrd)
    (himg : s.image = base ++ written src p0 (h - 1) ++ part) (hn : n + 5 = 8 * h + a + b)
    (hstep : stepChild src s = some s1) : Inv src p0 base (n + 1) s1 := by
  cases hC with
  | recvR hc hbl =>
    simp only [stepChild, hc, h0, List.singleton_append, Bool.false_eq_true, if_false,
      Option.some.injEq] at hstep
    subst hstep
    exact Inv.oddCycle h 1 0 b pin pout [] [] part hpar hne (CReader.read rfl hbl) hP
      rfl h1 hpos himg (by omega)
  | read hc hbl =>
    simp only [stepChild, hc, Option.some.injEq] at hstep
    subst hstep
    have hAR := afterRead_readInto src p0 h s.pos s.cbuf (by omega) hbl
    exact Inv.oddCycle h 2 1 b pin pout [] [] part hpar hne (CReader.sendR rfl hAR) hP
      h0 h1 (by simp [hpos]) himg (by omega)
  | sendR hc hAR =>
    simp only [stepChild, hc, Option.some.injEq] at hstep
    subst hstep
    exact Inv.oddCycle h 3 1 b pin pout [] [s.ceof] part hpar hne (CReader.recvW rfl hAR) hP
      h0 (by simp [h1]) hpos himg (by omega)
  | recvW hc hAR =>
    cases hP with
    | recvW hpc _ _ _ => simp [stepChild, hc, h0] at hstep
    | put1 hpc _ _ _ _ => simp [stepChild, hc, h0] at hstep
    | data hpc _ _ _ _ => simp [stepChild, hc, h0] at hstep
    | put2 hpc _ _ _ _ _ => simp [stepChild, hc, h0] at hstep
    | sendW hpc _ _ _ _ => simp [stepChild, hc, h0] at hstep
    | recvR hpc hbl hcnt hbs =>
      have himg1 : s.image = base ++ written src p0 h := by
        rw [himg, List.append_assoc, written_partFull]
      have hce := hAR.2.2.2
      simp only [stepChild, hc, h0, List.nil_append, Option.some.injEq] at hstep
      subst hstep
      by_cases hz1 : (blk src p0 h).length = 0
      · exact Inv.childMark h 0 1 [true] [] [] hpar hne hz1
          (PTold.recvR hpc hbl hcnt hbs)
          (CMark.put1 rfl (by rw [hAR.1, hz1])) rfl (by simp [h1, hce, hz1]) hpos
          (by simp [himg1]) (by omega) (by omega)
      · exact Inv.evenCycle (h + 1) 0 0 1 [false] [] [] [] [] (by omega) (ne_succ hne hz1)
          (PReader.recvR hpc (by simp [hcnt]) hbs hbl)
          (CWriter.put1 rfl (by omega) (afterRead_false hAR hz1) rfl)
          rfl (by simp [h1, hce, hz1]) (by simp [hpos]; omega) (by simp [himg1]) (by omega)


theorem PutCount_zero : PutCount 0 = tapeMark := by decide

theorem inv_parent_pmark {src : List (List Nat)} {p0 : Nat} {base : List Nat} {n : Nat}
    {s s1 : State} (h a b : Nat) (pin cin : List Bool) (mark : List Nat)
    (hpar : h % 2 = 0) (hne : ∀ i, i < h → (blk src p0 i).length ≠ 0)
    (hz : (blk src p0 h).length = 0)
    (hP : PMark src p0 h s.ppc s.pnc s.pbuf s.count s.bs a mark pin) (hC : CTold s.cpc s.ceof b cin)
    (h0 : s.pipe0 = cin) (h1 : s.pipe1 = pin) (hpos : s.pos = p0 + h + 1)
    (himg : s.image = base ++ written src p0 h ++ mark) (hn : n + 5 = 8 * h + 8 + a + b)
    (hstep : stepParent src s = some s1) : Inv src p0 base (n + 1) s1 := by
  cases hP with
  | recvW hpc hnc hbl hcnt hbs =>
    simp only [stepParent, hpc, h1, Option.some.injEq] at hstep
    subst hstep
    exact Inv.parentMark h 1 b [] cin [] hpar hne hz (PMark.put1 rfl hnc hbl hcnt hbs) hC
      h0 rfl hpos himg (by omega) (by omega)
  | put1 hpc hnc hbl hcnt hbs =>
    simp only [stepParent, hpc, hnc, if_true, Option.some.injEq] at hstep
    subst hstep
    exact Inv.parentMark h 2 b [] cin tapeMark hpar hne hz (PMark.wait rfl hbl hcnt hbs) hC
      h0 h1 hpos (by simp [himg, PutCount_zero]) (by omega) (by omega)
  | wait hpc hbl hcnt hbs =>
    cases hC with
    | recvR hc => simp [stepParent, hpc, hc] at hstep
    | exit hc he =>
      simp only [stepParent, hpc, hc, if_true, Option.some.injEq] at hstep
      subst hstep
      exact Inv.parentMark h 3 1 [] [] tapeMark hpar hne hz (PMark.done rfl hbl hcnt hbs)
        (CTold.exit rfl he) h0 h1 hpos himg (by omega) (by omega)
  | done hpc _ _ _ => simp [stepParent, hpc] at hstep

theorem inv_child_pmark {src : List (List Nat)} {p0 : Nat} {base : List Nat} {n : Nat}
    {s s1 : State} (h a b : Nat) (pin cin : List Bool) (mark : List Nat)
    (hpar : h % 2 = 0) (hne : ∀ i, i < h → (blk src p0 i).length ≠ 0)
    (hz : (blk src p0 h).length = 0)
    (hP : PMark src p0 h s.ppc s.pnc s.pbuf s.count s.bs a mark pin) (hC : CTold s.cpc s.ceof b cin)
    (h0 : s.pipe0 = cin) (h1 : s.pipe1 = pin) (hpos : s.pos = p0 + h + 1)
    (himg : s.image = base ++ written src p0 h ++ mark) (hn : n + 5 = 8 * h + 8 + a + b)
    (hfin : a = 3 → b = 1)
    (hstep : stepChild src s = some s1) : Inv src p0 base (n + 1) s1 := by
  cases hC with
  | recvR hc =>
    simp only [stepChild, hc, h0, if_true, Option.some.injEq] at hstep
    subst hstep
    exact Inv.parentMark h a 1 pin [] mark hpar hne hz hP (CTold.exit rfl rfl)
      rfl h1 hpos himg (by omega) (by omega)
  | exit hc _ => simp [stepChild, hc] at hstep

theorem inv_parent_cmark {src : List (List Nat)} {p0 : Nat} {base : List Nat} {n : Nat}
    {s s1 : State} (h a b : Nat) (pin cin : List Bool) (mark : List Nat)
    (hpar : h % 2 = 1) (hne : ∀ i, i < h → (blk src p0 i).length ≠ 0)
    (hz : (blk src p0 h).length = 0)
    (hP : PTold src p0 h s.ppc s.peof s.pbuf s.count s.bs a pin) (hC : CMark s.cpc s.cnc b mark cin)
    (h0 : s.pipe0 = cin) (h1 : s.pipe1 = pin) (hpos : s.pos = p0 + h + 1)
    (himg : s.image = base ++ written src p0 h ++ mark) (hn : n + 5 = 8 * h + 8 + a + b)
    (hstep : stepParent src s = some s1) : Inv src p0 base (n + 1) s1 := by
  cases hP with
  | recvR hpc hbl hcnt hbs =>
    simp only [stepParent, hpc, h1, if_true, Option.some.injEq] at hstep
    subst hstep
    exact Inv.childMark h 1 b [] cin mark hpar hne hz (PTold.wait rfl rfl hbl hcnt hbs) hC
      h0 rfl hpos himg (by omega) (by omega)
  | wait hpc he hbl hcnt hbs =>
    cases hC with
    | recvW hc _ => simp [stepParent, hpc, hc] at hstep
    | put1 hc _ => simp [stepParent, hpc, hc] at hstep
    | exit hc =>
      simp only [stepParent, hpc, hc, if_true, Option.some.injEq] at hstep
      subst hstep
      exact Inv.childMark h 2 2 [] [] tapeMark hpar hne hz (PTold.done rfl he hbl hcnt hbs)
        (CMark.exit rfl) h0 h1 hpos himg (by omega) (by omega)
  | done hpc _ _ _ _ => simp [stepParent, hpc] at hstep

theorem inv_child_cmark {src : List (List Nat)} {p0 : Nat} {base : List Nat} {n : Nat}
    {s s1 : State} (h a b : Nat) (pin cin : List Bool) (mark : List Nat)
    (hpar : h % 2 = 1) (hne : ∀ i, i < h → (blk src p0 i).length ≠ 0)
    (hz : (blk src p0 h).length = 0)
    (hP : PTold src p0 h s.ppc s.peof s.pbuf s.count s.bs a pin) (hC : CMark s.cpc s.cnc b mark cin)
    (h0 : s.pipe0 = cin) (h1 : s.pipe1 = pin) (hpos : s.pos = p0 + h + 1)
    (himg : s.image = base ++ written src p0 h ++ mark) (hn : n + 5 = 8 * h + 8 + a + b)
    (hfin : a = 2 → b = 2)
    (hstep : stepChild src s = some s1) : Inv src p0 base (n + 1) s1 := by
  cases hC with
  | recvW hc hnc =>
    simp only [stepChild, hc, h0, Option.some.injEq] at hstep
    subst hstep
    exact Inv.childMark h a 1 pin [] [] hpar hne hz hP (CMark.put1 rfl hnc)
      rfl h1 hpos himg (by omega) (by omega)
  | put1 hc hnc =>
    simp only [stepChild, hc, hnc, if_true, Option.some.injEq] at hstep
    subst hstep
    exact Inv.childMark h a 2 pin [] tapeMark hpar hne hz hP (CMark.exit rfl)
      h0 h1 hpos (by simp [himg, PutCount_zero]) (by omega) (by omega)
  | exit hc => simp [stepChild, hc] at hstep

/-! ## The invariant holds in every reachable state -/

theorem Inv_stepParent {src : List (List Nat)} {p0 : Nat} {base : List Nat} {n : Nat}
    {s s1 : State} (hinv : Inv src p0 base n s) (hstep : stepParent src s = some s1) :
    Inv src p0 base (n + 1) s1 := by
  cases hinv with
  | evenCycle h a nrd b pin pout cin cout part hpar hne hP hC h0 h1 hpos himg hn =>
    exact inv_parent_even h a nrd b pin pout cin cout part hpar hne hP hC h0 h1 hpos himg hn hstep
  | oddCycle h a nrd b pin pout cin cout part hpar hne hC hP h0 h1 hpos himg hn =>
    exact inv_parent_odd h a nrd b pin pout cin cout part hpar hne hC hP h0 h1 hpos himg hn hstep
  | parentMark h a b pin cin mark hpar hne hz hP hC h0 h1 hpos himg hn hfin =>
    exact inv_parent_pmark h a b pin cin mark hpar hne hz hP hC h0 h1 hpos himg hn hstep
  | childMark h a b pin cin mark hpar hne hz hP hC h0 h1 hpos himg hn hfin =>
    exact inv_parent_cmark h a b pin cin mark hpar hne hz hP hC h0 h1 hpos himg hn hstep

theorem Inv_stepChild {src : List (List Nat)} {p0 : Nat} {base : List Nat} {n : Nat}
    {s s1 : State} (hinv : Inv src p0 base n s) (hstep : stepChild src s = some s1) :
    Inv src p0 base (n + 1) s1 := by
  cases hinv with
  | evenCycle h a nrd b pin pout cin cout part hpar hne hP hC h0 h1 hpos himg hn =>
    exact inv_child_even h a nrd b pin pout cin cout part hpar hne hP hC h0 h1 hpos himg hn hstep
  | oddCycle h a nrd b pin pout cin cout part hpar hne hC hP h0 h1 hpos himg hn =>
    exact inv_child_odd h a nrd b pin pout cin cout part hpar hne hC hP h0 h1 hpos himg hn hstep
  | parentMark h a b pin cin mark hpar hne hz hP hC h0 h1 hpos himg hn hfin =>
    exact inv_child_pmark h a b pin cin mark hpar hne hz hP hC h0 h1 hpos himg hn hfin hstep
  | childMark h a b pin cin mark hpar hne hz hP hC h0 h1 hpos himg hn hfin =>
    exact inv_child_cmark h a b pin cin mark hpar hne hz hP hC h0 h1 hpos himg hn hfin hstep

theorem Inv_step {src : List (List Nat)} {p0 : Nat} {base : List Nat} {n : Nat}
    {s s1 : State} (who : Bool) (hinv : Inv src p0 base n s)
    (hstep : step src who s = some s1) : Inv src p0 base (n + 1) s1 := by
  cases who with
  | true => exact Inv_stepParent hinv (by simpa [step] using hstep)
  | false => exact Inv_stepChild hinv (by simpa [step] using hstep)

theorem Inv_init (src : List (List Nat)) (m : Main) (hbl : m.buffer.length = MAXSIZE) :
    Inv src m.pos m.image 0 (initPass m) :=
  Inv.evenCycle 0 1 0 4 [] [] [] [] [] rfl (fun i hi => absurd hi (Nat.not_lt_zero i))
    (PReader.read rfl rfl (fun hh => absurd rfl hh) hbl)
    (by simpa [partFull] using
      (@CWriter.sendW src m.pos 0 cSendW m.nc false m.buffer rfl hbl rfl))
    rfl rfl rfl (by simp [initPass, written]) rfl

theorem Inv_reach {src : List (List Nat)} {m : Main} (hbl : m.buffer.length = MAXSIZE)
    {tr : List (Bool × State)} {s : State} (hr : Reach src (initPass m) tr s) :
    Inv src m.pos m.image tr.length s := by
  induction hr with
  | init => exact Inv_init src m hbl
  | step who tr s s1 _ hstep ih => exact Inv_step who ih hstep

theorem Inv_progress {src : List (List Nat)} {p0 : Nat} {base : List Nat} {n : Nat}
    {s : State} (hinv : Inv src p0 base n s) (hnd : s.ppc ≠ pDone) :
    (∃ s1, stepParent src s = some s1) ∨ (∃ s1, stepChild src s = some s1) := by
  cases hinv with
  | evenCycle h a nrd b pin pout cin cout part hpar hne hP hC h0 h1 hpos himg hn =>
    cases hP with
    | recvR hpc _ _ _ => left; simp [stepParent, hpc, h1]
    | read hpc _ _ _ => left; simp [stepParent, hpc]
    | sendR hpc _ _ _ => left; simp [stepParent, hpc]
    | recvW hpc _ _ _ =>
      cases hC with
      | recvW hc _ _ => right; simp [stepChild, hc, h0]
      | put1 hc _ _ _ => right; simp [stepChild, hc]
      | data hc _ hAR _ =>
        right
        obtain ⟨buf1, nx, hpe, _⟩ := padEven_spec s.cbuf _ s.cnc hAR.2.2.1 hAR.1
          (afterRead_le hAR) hAR.2.1
        simp [stepChild, hc, hpe]
      | put2 hc _ _ _ _ => right; simp [stepChild, hc]
      | sendW hc _ _ => right; simp [stepChild, hc]
      | recvR hc _ => left; simp [stepParent, hpc, h1]
  | oddCycle h a nrd b pin pout cin cout part hpar hne hC hP h0 h1 hpos himg hn =>
    cases hC with
    | recvR hc _ => right; simp [stepChild, hc, h0]
    | read hc _ => right; simp [stepChild, hc]
    | sendR hc _ => right; simp [stepChild, hc]
    | recvW hc _ =>
      cases hP with
      | recvW hpc _ _ _ => left; simp [stepParent, hpc, h1]
      | put1 hpc _ _ _ _ => left; simp [stepParent, hpc]
      | data hpc hAR _ _ _ =>
        left
        obtain ⟨buf1, nx, hpe, _⟩ := padEven_spec s.pbuf _ s.pnc hAR.2.2.1 hAR.1
          (afterRead_le hAR) hAR.2.1
        simp [stepParent, hpc, hpe]
      | put2 hpc _ _ _ _ _ => left; simp [stepParent, hpc]
      | sendW hpc _ _ _ _ => left; simp [stepParent, hpc]
      | recvR hpc _ _ _ => right; simp [stepChild, hc, h0]
  | parentMark h a b pin cin mark hpar hne hz hP hC h0 h1 hpos himg hn hfin =>
    cases hC with
    | recvR hc => right; simp [stepChild, hc, h0]
    | exit hc _ =>
      cases hP with
      | recvW hpc _ _ _ _ => left; simp [stepParent, hpc, h1]
      | put1 hpc _ _ _ _ => left; simp [stepParent, hpc]
      | wait hpc _ _ _ => left; simp [stepParent, hpc, hc]
      | done hpc _ _ _ => exact absurd hpc hnd
  | childMark h a b pin cin mark hpar hne hz hP hC h0 h1 hpos himg hn hfin =>
    cases hC with
    | recvW hc _ => right; simp [stepChild, hc, h0]
    | put1 hc _ => right; simp [stepChild, hc]
    | exit hc =>
      cases hP with
      | recvR hpc _ _ _ => left; simp [stepParent, hpc, h1]
      | wait hpc _ _ _ _ => left; simp [stepParent, hpc, hc]
      | done hpc _ _ _ _ => exact absurd hpc hnd

theorem next_isSome {src : List (List Nat)} {p0 : Nat} {base : List Nat} {n : Nat}
    {s : State} (hinv : Inv src p0 base n s) (hnd : s.ppc ≠ pDone) (b : Bool) :
    ∃ s1, next src b s = some s1 ∧ Inv src p0 base (n + 1) s1 := by
  unfold next
  cases hb : step src b s with
  | some s1 => exact ⟨s1, rfl, Inv_step b hinv hb⟩
  | none =>
    rcases Inv_progress hinv hnd with ⟨s1, h1⟩ | ⟨s1, h1⟩
    · cases b with
      | true => simp [step, h1] at hb
      | false => exact ⟨s1, by simp [step, h1], Inv_stepParent hinv h1⟩
    · cases b with
      | true => exact ⟨s1, by simp [step, h1], Inv_stepChild hinv h1⟩
      | false => simp [step, h1] at hb

theorem Inv_mutex {src : List (List Nat)} {p0 : Nat} {base : List Nat} {n : Nat}
    {s : State} (hinv : Inv src p0 base n s) :
    ¬ (s.ppc = pRead ∧ s.cpc = cRead) ∧ ¬ (inWriteP s.ppc ∧ inWriteC s.cpc) := by
  cases hinv with
  | evenCycle h a nrd b pin pout cin cout part hpar hne hP hC h0 h1 hpos himg hn =>
    constructor
    · rintro ⟨_, hc⟩
      cases hC <;> simp_all
    · rintro ⟨hp, _⟩
      cases hP <;> simp_all [inWriteP]
  | oddCycle h a nrd b pin pout cin cout part hpar hne hC hP h0 h1 hpos himg hn =>
    constructor
    · rintro ⟨hp, _⟩
      cases hP <;> simp_all
    · rintro ⟨_, hc⟩
      cases hC <;> simp_all [inWriteC]
  | parentMark h a b pin cin mark hpar hne hz hP hC h0 h1 hpos himg hn hfin =>
    constructor
    · rintro ⟨_, hc⟩
      cases hC <;> simp_all
    · rintro ⟨_, hc⟩
      cases hC <;> simp_all [inWriteC]
  | childMark h a b pin cin mark hpar hne hz hP hC h0 h1 hpos himg hn hfin =>
    constructor
    · rintro ⟨hp, _⟩
      cases hP <;> simp_all
    · rintro ⟨hp, _⟩
      cases hP <;> simp_all [inWriteP]

theorem le_of_mark {src : List (List Nat)} {p0 h N : Nat}
    (hne : ∀ i, i < h → (blk src p0 i).length ≠ 0) (hN : (blk src p0 N).length = 0) :
    h ≤ N := by
  by_contra hlt
  exact hne N (by omega) hN

theorem eq_of_mark {src : List (List Nat)} {p0 h N : Nat}
    (hne : ∀ i, i < h → (blk src p0 i).length ≠ 0) (hz : (blk src p0 h).length = 0)
    (hneN : ∀ i, i < N → (blk src p0 i).length ≠ 0) (hN : (blk src p0 N).length = 0) :
    h = N :=
  Nat.le_antisymm (le_of_mark hne hN) (le_of_mark hneN hz)

theorem Inv_bound {src : List (List Nat)} {p0 : Nat} {base : List Nat} {n : Nat}
    {s : State} (hinv : Inv src p0 base n s) (N : Nat) (hN : (blk src p0 N).length = 0) :
    n ≤ 8 * N + 7 ∧ s.pos ≤ p0 + N + 1 := by
  cases hinv with
  | evenCycle h a nrd b pin pout cin cout part hpar hne hP hC h0 h1 hpos himg hn =>
    have hle := le_of_mark hne hN
    have ha : a ≤ 3 ∧ nrd ≤ 1 := by cases hP <;> simp
    have hb : b ≤ 5 := by cases hC <;> simp
    omega
  | oddCycle h a nrd b pin pout cin cout part hpar hne hC hP h0 h1 hpos himg hn =>
    have hle := le_of_mark hne hN
    have ha : a ≤ 3 ∧ nrd ≤ 1 := by cases hC <;> simp
    have hb : b ≤ 5 := by cases hP <;> simp
    omega
  | parentMark h a b pin cin mark hpar hne hz hP hC h0 h1 hpos himg hn hfin =>
    have hle := le_of_mark hne hN
    have ha : a ≤ 3 := by cases hP <;> simp
    have hb : b ≤ 1 := by cases hC <;> simp
    omega
  | childMark h a b pin cin mark hpar hne hz hP hC h0 h1 hpos himg hn hfin =>
    have hle := le_of_mark hne hN
    have ha : a ≤ 2 := by cases hP <;> simp
    have hb : b ≤ 2 := by cases hC <;> simp
    omega

/-- What the invariant says of a state in which the parent has joined the child. -/
theorem Inv_done {src : List (List Nat)} {p0 : Nat} {base : List Nat} {n : Nat}
    {s : State} (hinv : Inv src p0 base n s) (hd : s.ppc = pDone) :
    ∃ h, (∀ i, i < h → (blk src p0 i).length ≠ 0) ∧ (blk src p0 h).length = 0 ∧
      s.image = base ++ written src p0 h ++ tapeMark ∧ s.pos = p0 + h + 1 ∧
      s.count = h ∧ s.bs = (blk src p0 0).length ∧ s.pipe0 = [] ∧ s.pipe1 = [] ∧
      s.cpc = cExit ∧ s.pbuf.length = MAXSIZE ∧ n = 8 * h + 7 ∧
      (h % 2 = 0 → s.ceof = true) ∧ (h % 2 = 1 → s.peof = true) := by
  cases hinv with
  | evenCycle h a nrd b pin pout cin cout part hpar hne hP hC h0 h1 hpos himg hn =>
    cases hP <;> simp_all
  | oddCycle h a nrd b pin pout cin cout part hpar hne hC hP h0 h1 hpos himg hn =>
    cases hP <;> simp_all
  | parentMark h a b pin cin mark hpar hne hz hP hC h0 h1 hpos himg hn hfin =>
    cases hP with
    | recvW hpc _ _ _ _ => simp [hpc] at hd
    | put1 hpc _ _ _ _ => simp [hpc] at hd
    | wait hpc _ _ _ => simp [hpc] at hd
    | done hpc hbl hcnt hbs =>
      have hb : b = 1 := hfin rfl
      subst hb
      cases hC with
      | exit hc he =>
        exact ⟨h, hne, hz, himg, hpos, hcnt, hbs, h0, h1, hc, hbl, by omega,
          fun _ => he, fun h1 => by omega⟩
  | childMark h a b pin cin mark hpar hne hz hP hC h0 h1 hpos himg hn hfin =>
    cases hP with
    | recvR hpc _ _ _ => simp [hpc] at hd
    | wait hpc _ _ _ _ => simp [hpc] at hd
    | done hpc he hbl hcnt hbs =>
      have hb : b = 2 := hfin rfl
      subst hb
      cases hC with
      | exit hc =>
        exact ⟨h, hne, hz, himg, hpos, hcnt, hbs, h0, h1, hc, hbl, by omega,
          fun h1 => by omega, fun _ => he⟩

theorem blk_beyond (src : List (List Nat)) (p0 i : Nat) (h : src.length ≤ p0 + i) :
    blk src p0 i = [] := by
  simp [blk, readData, List.getD, List.getElem?_eq_none h]

theorem exists_mark (src : List (List Nat)) (p0 : Nat) :
    ∃ N, (∀ i, i < N → (blk src p0 i).length ≠ 0) ∧ (blk src p0 N).length = 0 ∧
      N ≤ src.length := by
  have hz : (blk src p0 src.length).length = 0 := by
    rw [blk_beyond src p0 src.length (by omega)]; rfl
  have hex : ∃ N, (blk src p0 N).length = 0 := ⟨src.length, hz⟩
  exact ⟨Nat.find hex, fun i hi => Nat.find_min hex hi, Nat.find_spec hex,
    Nat.find_min' hex hz⟩

theorem runPass_done {src : List (List Nat)} {p0 : Nat} {base : List Nat} (N : Nat)
    (hneN : ∀ i, i < N → (blk src p0 i).length ≠ 0) (hN : (blk src p0 N).length = 0) :
    ∀ (fuel n : Nat) (s : State) (sched : List Bool), Inv src p0 base n s →
      8 * N + 7 < fuel + n →
      ∃ s1 sched1, runPass src fuel sched s = some (s1, sched1) ∧ s1.ppc = pDone ∧
        Inv src p0 base (8 * N + 7) s1 := by
  intro fuel
  induction fuel with
  | zero =>
    intro n s sched hinv hlt
    have := (Inv_bound hinv N hN).1
    omega
  | succ fuel ih =>
    intro n s sched hinv hlt
    by_cases hd : s.ppc = pDone
    · obtain ⟨h, hne, hz, _, _, _, _, _, _, _, _, hn, _⟩ := Inv_done hinv hd
      have hh : h = N := eq_of_mark hne hz hneN hN
      subst hh
      subst hn
      exact ⟨s, sched, by simp [runPass, hd], hd, hinv⟩
    · obtain ⟨s1, hnx, hinv1⟩ := next_isSome hinv hd (sched.headD true)
      obtain ⟨s2, sched2, hrun, hd2, hinv2⟩ := ih (n + 1) s1 sched.tail hinv1 (by omega)
      exact ⟨s2, sched2, by simp only [runPass, hd, if_false, hnx, hrun], hd2, hinv2⟩

/-- The result of one pass from the state `m` of `main`, under every schedule. -/
theorem pass_result (src : List (List Nat)) (m : Main) (hbl : m.buffer.length = MAXSIZE)
    (N : Nat) (hneN : ∀ i, i < N → (blk src m.pos i).length ≠ 0)
    (hN : (blk src m.pos N).length = 0) (fuel : Nat) (hfuel : 8 * N + 8 ≤ fuel)
    (sched : List Bool) :
    ∃ s1 sched1, runPass src fuel sched (initPass m) = some (s1, sched1) ∧
      s1.image = m.image ++ written src m.pos N ++ tapeMark ∧ s1.pos = m.pos + N + 1 ∧
      s1.count = N ∧ s1.bs = (blk src m.pos 0).length ∧ s1.pbuf.length = MAXSIZE ∧
      s1.pipe0 = [] ∧ s1.pipe1 = [] ∧ s1.ppc = pDone ∧ s1.cpc = cExit ∧
      (N % 2 = 0 → s1.ceof = true) ∧ (N % 2 = 1 → s1.peof = true) := by
  obtain ⟨s1, sched1, hrun, hd, hinv⟩ :=
    runPass_done N hneN hN fuel 0 (initPass m) sched (Inv_init src m hbl) (by omega)
  obtain ⟨h, hne, hz, himg, hpos, hcnt, hbs, h0, h1, hc, hbl1, _, he0, he1⟩ := Inv_done hinv hd
  have hh : h = N := eq_of_mark hne hz hneN hN
  subst hh
  exact ⟨s1, sched1, hrun, himg, hpos, hcnt, hbs, hbl1, h0, h1, hd, hc, he0, he1⟩

/-! ## The volume loop -/

theorem framesOf_append (xs ys : List (List Nat)) :
    framesOf (xs ++ ys) = framesOf xs ++ framesOf ys := by
  induction xs with
  | nil => rfl
  | cons x xs ih => simp [framesOf, ih]

theorem written_eq_framesOf (src : List (List Nat)) (p : Nat) (v : List (List Nat))
    (hv : ∀ i, i < v.length → readData src (p + i) = v.getD i []) :
    ∀ k, k ≤ v.length → written src p k = framesOf (v.take k) := by
  intro k
  induction k with
  | zero => intro _; simp [written, framesOf]
  | succ k ih =>
    intro hk
    have hlt : k < v.length := by omega
    have hb : blk src p k = v[k] := by
      rw [blk, hv k hlt]; simp [List.getD, List.getElem?_eq_getElem hlt]
    rw [written, ih (by omega), hb, List.take_succ, framesOf_append]
    simp [List.getElem?_eq_getElem hlt, framesOf]

theorem volume_facts (src : List (List Nat)) (p : Nat) (v : List (List Nat))
    (hd : DataBlocks v)
    (hv : ∀ i, i < v.length → readData src (p + i) = v.getD i [])
    (hz : readData src (p + v.length) = []) :
    (∀ i, i < v.length → (blk src p i).length ≠ 0) ∧ (blk src p v.length).length = 0 ∧
      written src p v.length = framesOf v ∧ (blk src p 0).length = (v.headD []).length := by
  refine ⟨?_, ?_, ?_, ?_⟩
  · intro i hi
    have hb : blk src p i = v[i] := by
      rw [blk, hv i hi]; simp [List.getD, List.getElem?_eq_getElem hi]
    rw [hb]
    have := (hd v[i] (List.getElem_mem hi)).1
    omega
  · rw [blk, hz]; rfl
  · rw [written_eq_framesOf src p v hv v.length (Nat.le_refl _), List.take_length]
  · cases v with
    | nil => simp at hz; simp [blk, hz]
    | cons b bs =>
      have := hv 0 (by simp)
      simp at this
      simp [blk, this]

theorem volumeLoop_spec (src : List (List Nat)) (F : Nat) :
    ∀ (vols : List (List (List Nat))) (m : Main) (sched : List Bool) (fuel : Nat),
      m.buffer.length = MAXSIZE → (∀ v, v ∈ vols → v ≠ [] ∧ DataBlocks v) →
      OnTape src m.pos vols → (∀ v, v ∈ vols → 8 * v.length + 8 ≤ F) → 8 ≤ F →
      vols.length < fuel →
      ∃ m1, volumeLoop src F fuel sched m = some m1 ∧
        m1.image = m.image ++ imageOf vols ++ tapeMark ∧
        m1.diag = m.diag ++ diagOf vols ++ ["EOM\n"] := by
  intro vols
  induction vols with
  | nil =>
    intro m sched fuel hbl _ htape _ hF hfuel
    obtain ⟨fuel, rfl⟩ : ∃ k, fuel = k + 1 := ⟨fuel - 1, by omega⟩
    have hz : (blk src m.pos 0).length = 0 := by
      have : readData src m.pos = [] := htape
      simp [blk, this]
    obtain ⟨s1, sched1, hrun, himg, _, hcnt, _⟩ :=
      pass_result src m hbl 0 (fun i hi => absurd hi (Nat.not_lt_zero i)) hz F (by omega) sched
    refine ⟨{ pos := s1.pos, image := s1.image, buffer := s1.pbuf, nc := s1.pnc,
              eof := s1.peof, bs := s1.bs, diag := m.diag ++ [report s1.count s1.bs] },
      by simp only [volumeLoop, hrun, hcnt, Nat.lt_irrefl, if_false], ?_, ?_⟩
    · simp [himg, written, imageOf]
    · simp [report, diagOf, hcnt]
  | cons v vs ih =>
    intro m sched fuel hbl hvols htape hFv hF hfuel
    obtain ⟨fuel, rfl⟩ : ∃ k, fuel = k + 1 := ⟨fuel - 1, by omega⟩
    obtain ⟨hv, hzv, hrest⟩ := htape
    obtain ⟨hvne, hvd⟩ := hvols v (List.mem_cons_self _ _)
    obtain ⟨hne, hz, hwr, hbs0⟩ := volume_facts src m.pos v hvd hv hzv
    obtain ⟨s1, sched1, hrun, himg, hpos, hcnt, hbs, hbl1, _⟩ :=
      pass_result src m hbl v.length hne hz F (hFv v (List.mem_cons_self _ _)) sched
    have hpos_len : 0 < v.length := List.length_pos.mpr hvne
    obtain ⟨m1, hloop, himg1, hdiag1⟩ := ih
      { pos := s1.pos, image := s1.image, buffer := s1.pbuf, nc := s1.pnc, eof := s1.peof
        bs := s1.bs, diag := m.diag ++ [report s1.count s1.bs] } sched1 fuel hbl1
      (fun w hw => hvols w (List.mem_cons_of_mem _ hw))
      (by simpa [hpos] using hrest)
      (fun w hw => hFv w (List.mem_cons_of_mem _ hw)) hF
      (by simp at hfuel; omega)
    refine ⟨m1, ?_, ?_, ?_⟩
    · simp only [volumeLoop, hrun]
      rw [if_pos (by omega)]
      exact hloop
    · rw [himg1]; simp [himg, hwr, imageOf]
    · have hne0 : v.length ≠ 0 := by omega
      rw [hdiag1]; simp [diagOf, diagLine, report, hcnt, hbs, hbs0, hne0]

theorem initMain_buffer : initMain.buffer.length = MAXSIZE := by
  simp [initMain]

theorem timage_spec (src : List (List Nat)) (vols : List (List (List Nat)))
    (hvols : ∀ v, v ∈ vols → v ≠ [] ∧ DataBlocks v) (htape : OnTape src 0 vols)
    (fuel : Nat) (hFv : ∀ v, v ∈ vols → 8 * v.length + 8 ≤ fuel) (hF : 8 ≤ fuel)
    (hfuel : vols.length < fuel) (sched : List Bool) :
    timage src fuel sched =
      some (imageOf vols ++ tapeMark ++ tapeMark, diagOf vols ++ ["EOM\n"]) := by
  obtain ⟨m1, hloop, himg, hdiag⟩ :=
    volumeLoop_spec src fuel vols initMain sched fuel initMain_buffer hvols htape hFv hF hfuel
  simp only [timage, hloop]
  simp [himg, hdiag, initMain, PutCount_zero]

theorem readData_append (pre xs : List (List Nat)) (i : Nat) :
    readData (pre ++ xs) (pre.length + i) = readData xs i := by
  simp [readData, List.getD, List.getElem?_append_right]

theorem onTape_sourceOf (vols : List (List (List Nat))) (rest : List (List Nat))
    (hrest : rest.headD [] = []) (hd : ∀ v, v ∈ vols → DataBlocks v) :
    ∀ pre : List (List Nat), OnTape (pre ++ (sourceOf vols ++ rest)) pre.length vols := by
  induction vols with
  | nil =>
    intro pre
    have h := readData_append pre rest 0
    simp only [Nat.add_zero] at h
    show readData (pre ++ (sourceOf [] ++ rest)) pre.length = []
    rw [sourceOf, List.nil_append, h]
    cases rest with
    | nil => simp [readData]
    | cons r rs => simp at hrest; simp [readData, hrest]
  | cons v vs ih =>
    intro pre
    have hv := hd v (List.mem_cons_self _ _)
    refine ⟨?_, ?_, ?_⟩
    · intro i hi
      rw [readData_append]
      have hle := (hv v[i] (List.getElem_mem hi)).2
      simp [readData, sourceOf, List.getD, List.getElem?_append_left, hi,
        List.getElem?_eq_getElem hi, List.take_of_length_le hle]
    · rw [readData_append]
      have : (v ++ [] :: (sourceOf vs ++ rest))[v.length]? = some [] := by
        rw [List.getElem?_append_right (Nat.le_refl _)]; simp
      simp [readData, sourceOf, List.getD, this]
    · have h := ih (fun w hw => hd w (List.mem_cons_of_mem _ hw)) (pre ++ v ++ [[]])
      simpa [sourceOf, Nat.add_assoc] using h

theorem sourceOf_append (xs ys : List (List (List Nat))) :
    sourceOf (xs ++ ys) = sourceOf xs ++ sourceOf ys := by
  induction xs with
  | nil => rfl
  | cons x xs ih => simp [sourceOf, ih]

theorem imageOf_append (xs ys : List (List (List Nat))) :
    imageOf (xs ++ ys) = imageOf xs ++ imageOf ys := by
  induction xs with
  | nil => rfl
  | cons x xs ih => simp [imageOf, ih]

theorem length_le_sourceOf (vols : List (List (List Nat))) :
    ∀ v, v ∈ vols → v.length < (sourceOf vols).length := by
  induction vols with
  | nil => intro v hv; simp at hv
  | cons w ws ih =>
    intro v hv
    rcases List.mem_cons.mp hv with h | h
    · subst h; simp [sourceOf]
    · have := ih v h
      simp [sourceOf]; omega

theorem count_le_sourceOf (vols : List (List (List Nat))) :
    vols.length ≤ (sourceOf vols).length := by
  induction vols with
  | nil => simp
  | cons w ws ih => simp [sourceOf]; omega


/-! ## The image is a prefix of the serial image -/

theorem written_mono (src : List (List Nat)) (p0 : Nat) (h N : Nat) (hle : h ≤ N) :
    written src p0 h <+: written src p0 N := by
  induction N with
  | zero =>
    have : h = 0 := by omega
    subst this; exact List.prefix_refl _
  | succ N ih =>
    rcases Nat.lt_or_ge h (N + 1) with hlt | hge
    · exact (ih (by omega)).trans (by rw [written]; exact List.prefix_append _ _)
    · have : h = N + 1 := by omega
      subst this; exact List.prefix_refl _

theorem PWriter_part {src : List (List Nat)} {p0 h : Nat} {pc : PPc} {nc : Nat} {eof : Bool}
    {buf : List Nat} {count bs b : Nat} {part : List Nat} {pin pout : List Bool}
    (hW : PWriter src p0 h pc nc eof buf count bs b part pin pout) (hh : h ≠ 0)
    (hz : (blk src p0 (h - 1)).length ≠ 0) : part <+: partFull src p0 h := by
  rw [partFull_eq src p0 h hh hz]
  cases hW with
  | recvW _ _ _ _ => exact List.nil_prefix
  | put1 _ _ _ _ _ => exact List.nil_prefix
  | data _ hAR _ _ _ => rw [hAR.1]; simp [List.append_assoc]
  | put2 _ hnc _ _ _ _ => rw [hnc]; exact List.prefix_append _ _
  | sendW _ _ _ _ _ => rw [partFull_eq src p0 h hh hz]
  | recvR _ _ _ _ => rw [partFull_eq src p0 h hh hz]

theorem CWriter_part {src : List (List Nat)} {p0 h : Nat} {pc : CPc} {nc : Nat} {eof : Bool}
    {buf : List Nat} {b : Nat} {part : List Nat} {cin cout : List Bool}
    (hW : CWriter src p0 h pc nc eof buf b part cin cout)
    (hz : h ≠ 0 → (blk src p0 (h - 1)).length ≠ 0) : part <+: partFull src p0 h := by
  cases hW with
  | recvW _ _ _ => exact List.nil_prefix
  | put1 _ _ _ _ => exact List.nil_prefix
  | data _ hh hAR _ =>
    rw [partFull_eq src p0 h hh (hz hh), hAR.1]; simp [List.append_assoc]
  | put2 _ hh hnc _ _ =>
    rw [partFull_eq src p0 h hh (hz hh), hnc]; exact List.prefix_append _ _
  | sendW _ _ _ => exact List.prefix_refl _
  | recvR _ _ => exact List.prefix_refl _

theorem Inv_image {src : List (List Nat)} {p0 : Nat} {base : List Nat} {n : Nat}
    {s : State} (hinv : Inv src p0 base n s) (N : Nat)
    (hneN : ∀ i, i < N → (blk src p0 i).length ≠ 0) (hN : (blk src p0 N).length = 0) :
    s.image <+: base ++ written src p0 N ++ tapeMark := by
  have key : ∀ h part, h ≤ N → part <+: partFull src p0 h →
      base ++ written src p0 (h - 1) ++ part <+: base ++ written src p0 N ++ tapeMark := by
    intro h part hle hp
    rw [List.append_assoc, List.append_assoc]
    refine (List.prefix_append_right_inj base).mpr ?_
    have h1 : written src p0 (h - 1) ++ part <+: written src p0 h := by
      rw [← written_partFull src p0 h]
      exact (List.prefix_append_right_inj _).mpr hp
    exact (h1.trans (written_mono src p0 h N hle)).trans (List.prefix_append _ _)
  cases hinv with
  | evenCycle h a nrd b pin pout cin cout part hpar hne hP hC h0 h1 hpos himg hn =>
    rw [himg]
    exact key h part (le_of_mark hne hN) (CWriter_part hC (fun hh => hne (h - 1) (by omega)))
  | oddCycle h a nrd b pin pout cin cout part hpar hne hC hP h0 h1 hpos himg hn =>
    rw [himg]
    exact key h part (le_of_mark hne hN)
      (PWriter_part hP (by omega) (hne (h - 1) (by omega)))
  | parentMark h a b pin cin mark hpar hne hz hP hC h0 h1 hpos himg hn hfin =>
    have hh : h = N := eq_of_mark hne hz hneN hN
    subst hh
    rw [himg]
    refine (List.prefix_append_right_inj _).mpr ?_
    cases hP <;> simp
  | childMark h a b pin cin mark hpar hne hz hP hC h0 h1 hpos himg hn hfin =>
    have hh : h = N := eq_of_mark hne hz hneN hN
    subst hh
    rw [himg]
    refine (List.prefix_append_right_inj _).mpr ?_
    cases hC <;> simp

theorem blk_succ (src : List (List Nat)) (p0 i : Nat) :
    blk src p0 (i + 1) = blk src (p0 + 1) i := by
  simp [blk, Nat.add_assoc, Nat.add_comm 1 i]

theorem written_shift (src : List (List Nat)) (p0 k : Nat) :
    written src p0 (k + 1) = frame (blk src p0 0) ++ written src (p0 + 1) k := by
  induction k with
  | zero => simp [written]
  | succ k ih => rw [written, ih, written, blk_succ, List.append_assoc]

theorem written_serial (src : List (List Nat)) : ∀ (N p0 : Nat),
    (∀ i, i < N → (blk src p0 i).length ≠ 0) → (blk src p0 N).length = 0 →
    written src p0 N ++ tapeMark = serialFrom (src.drop p0) := by
  intro N
  induction N with
  | zero =>
    intro p0 _ hz
    cases hdrop : src.drop p0 with
    | nil => simp [written, serialFrom, PutCount_zero]
    | cons b rest =>
      have hb : src.getD p0 [] = b := by
        have := List.head?_drop src p0
        rw [hdrop] at this
        simp [List.getD, ← this]
      have : (b.take MAXSIZE).length = 0 := by
        rw [← hb]; exact hz
      simp only [written, serialFrom, this, if_true, PutCount_zero, List.nil_append]
  | succ N ih =>
    intro p0 hne hz
    have h0 := hne 0 (by omega)
    cases hdrop : src.drop p0 with
    | nil =>
      exfalso
      apply h0
      have hlen : src.length ≤ p0 := by
        have := congrArg List.length hdrop
        simp at this; omega
      rw [blk_beyond src p0 0 (by omega)]; rfl
    | cons b rest =>
      have hb : src.getD p0 [] = b := by
        have := List.head?_drop src p0
        rw [hdrop] at this
        simp [List.getD, ← this]
      have hrest : src.drop (p0 + 1) = rest := by
        have : src.drop (p0 + 1) = (src.drop p0).drop 1 := by
          rw [List.drop_drop]
        rw [this, hdrop]; rfl
      have hblk : blk src p0 0 = b.take MAXSIZE := by
        rw [← hb]; rfl
      have hnz : (b.take MAXSIZE).length ≠ 0 := by rw [← hblk]; exact h0
      have hih := ih (p0 + 1) (fun i hi => by rw [← blk_succ]; exact hne (i + 1) (by omega))
        (by rw [← blk_succ]; exact hz)
      rw [written_shift, List.append_assoc, hih, hrest, hblk]
      have hnz1 : ¬ (b.take MAXSIZE).length = 0 := hnz
      simp only [serialFrom, frame, hnz1, if_false, PutCount_eq_le4, pad, List.append_assoc]


/-! ## Reads between tokens -/

theorem stepChild_ppc {src : List (List Nat)} {s s1 : State}
    (h : stepChild src s = some s1) : s1.ppc = s.ppc := by
  unfold stepChild at h
  split at h
  all_goals first
    | (simp only [Option.some.injEq] at h; subst h; rfl)
    | (split at h <;> first
        | (simp only [Option.some.injEq] at h; subst h; rfl)
        | simp at h)
    | simp at h

theorem stepParent_cpc {src : List (List Nat)} {s s1 : State}
    (h : stepParent src s = some s1) : s1.cpc = s.cpc := by
  unfold stepParent at h
  split at h
  all_goals first
    | (simp only [Option.some.injEq] at h; subst h; rfl)
    | (split at h <;> first
        | (simp only [Option.some.injEq] at h; subst h; rfl)
        | simp at h)
    | simp at h

/-- The reads of the parent since its last token, by its program point. -/
theorem monitor_parent {src : List (List Nat)} {s0 : State} (h0 : s0.ppc = pRead)
    {tr : List (Bool × State)} {s : State} (hr : Reach src s0 tr s) :
    readsSinceRecv true tr = if s.ppc = pSendR ∨ s.ppc = pRecvW then 1 else 0 := by
  induction hr with
  | init => simp [readsSinceRecv, h0]
  | step who tr s s1 _ hstep ih =>
    cases who with
    | false =>
      have hpc := stepChild_ppc (by simpa [step] using hstep)
      simp [readsSinceRecv, ih, hpc]
    | true =>
      have hstep1 : stepParent src s = some s1 := by simpa [step] using hstep
      unfold stepParent at hstep1
      split at hstep1
      all_goals first
        | (simp only [Option.some.injEq] at hstep1; subst hstep1
           simp_all [readsSinceRecv, isRecv, isRead] <;> split <;> simp)
        | (split at hstep1 <;> first
            | (simp only [Option.some.injEq] at hstep1; subst hstep1
               simp_all [readsSinceRecv, isRecv, isRead] <;> split <;> simp)
            | simp at hstep1)
        | simp at hstep1

/-- The reads of the child since its last token, by its program point. -/
theorem monitor_child {src : List (List Nat)} {s0 : State} (h0 : s0.cpc = cSendW)
    {tr : List (Bool × State)} {s : State} (hr : Reach src s0 tr s) :
    readsSinceRecv false tr = if s.cpc = cSendR ∨ s.cpc = cRecvW then 1 else 0 := by
  induction hr with
  | init => simp [readsSinceRecv, h0]
  | step who tr s s1 _ hstep ih =>
    cases who with
    | true =>
      have hpc := stepParent_cpc (by simpa [step] using hstep)
      simp [readsSinceRecv, ih, hpc]
    | false =>
      have hstep1 : stepChild src s = some s1 := by simpa [step] using hstep
      unfold stepChild at hstep1
      split at hstep1
      all_goals first
        | (simp only [Option.some.injEq] at hstep1; subst hstep1
           simp_all [readsSinceRecv, isRecv, isRead] <;> split <;> simp)
        | (split at hstep1 <;> first
            | (simp only [Option.some.injEq] at hstep1; subst hstep1
               simp_all [readsSinceRecv, isRecv, isRead] <;> split <;> simp)
            | simp at hstep1)
        | simp at hstep1


/-! ## Buffer bounds and the decoder -/

theorem Inv_data {src : List (List Nat)} {p0 : Nat} {base : List Nat} {n : Nat}
    {s : State} (hinv : Inv src p0 base n s) :
    (s.ppc = pData → s.pnc ≤ MAXSIZE ∧ s.pbuf.length = MAXSIZE) ∧
      (s.cpc = cData → s.cnc ≤ MAXSIZE ∧ s.cbuf.length = MAXSIZE) := by
  cases hinv with
  | evenCycle h a nrd b pin pout cin cout part hpar hne hP hC h0 h1 hpos himg hn =>
    constructor
    · intro hp; cases hP <;> simp_all
    · intro hc
      cases hC with
      | data _ _ hAR _ => exact ⟨afterRead_le hAR, hAR.2.2.1⟩
      | recvW hc1 _ _ => simp [hc1] at hc
      | put1 hc1 _ _ _ => simp [hc1] at hc
      | put2 hc1 _ _ _ _ => simp [hc1] at hc
      | sendW hc1 _ _ => simp [hc1] at hc
      | recvR hc1 _ => simp [hc1] at hc
  | oddCycle h a nrd b pin pout cin cout part hpar hne hC hP h0 h1 hpos himg hn =>
    constructor
    · intro hp
      cases hP with
      | data _ hAR _ _ _ => exact ⟨afterRead_le hAR, hAR.2.2.1⟩
      | recvW hc1 _ _ _ => simp [hc1] at hp
      | put1 hc1 _ _ _ _ => simp [hc1] at hp
      | put2 hc1 _ _ _ _ _ => simp [hc1] at hp
      | sendW hc1 _ _ _ _ => simp [hc1] at hp
      | recvR hc1 _ _ _ => simp [hc1] at hp
    · intro hc; cases hC <;> simp_all
  | parentMark h a b pin cin mark hpar hne hz hP hC h0 h1 hpos himg hn hfin =>
    constructor
    · intro hp; cases hP <;> simp_all
    · intro hc; cases hC <;> simp_all
  | childMark h a b pin cin mark hpar hne hz hP hC h0 h1 hpos himg hn hfin =>
    constructor
    · intro hp; cases hP <;> simp_all
    · intro hc; cases hC <;> simp_all

theorem le4_value (n : Nat) (h : n < 4294967296) :
    n % 256 + 256 * (n / 256 % 256) + 65536 * (n / 65536 % 256) +
      16777216 * (n / 16777216 % 256) = n := by
  omega

theorem decode_mark (fuel : Nat) (X : List Nat) :
    decode (fuel + 1) (tapeMark ++ X) = (decode fuel X).map (fun rs => Rec.mark :: rs) := by
  simp [tapeMark, decode]

theorem decode_frame (fuel : Nat) (b X : List Nat) (h1 : 1 ≤ b.length)
    (h2 : b.length ≤ MAXSIZE) :
    decode (fuel + 1) (frame b ++ X) = (decode fuel X).map (fun rs => Rec.data b :: rs) := by
  have hM := MAXSIZE_eq
  have hne : b.length ≠ 0 := by omega
  have hv := le4_value b.length (by omega)
  have hpad : ∀ Y : List Nat, List.drop (b.length % 2) (pad b.length ++ Y) = Y := by
    intro Y
    by_cases hodd : b.length % 2 = 0
    · simp [pad, hodd]
    · have : b.length % 2 = 1 := by omega
      simp [pad, this]
  simp [frame, hne, le4, decode, hv, hpad]


theorem decode_framesOf (v : List (List Nat)) (hd : DataBlocks v) (X : List Nat)
    (r : List Rec) (fuel : Nat) (hX : ∀ f, fuel ≤ f → decode f X = some r) :
    ∀ f, fuel + v.length ≤ f → decode f (framesOf v ++ X) = some (v.map toRec ++ r) := by
  induction v with
  | nil => intro f hf; simpa [framesOf] using hX f (by simpa using hf)
  | cons b bs ih =>
    intro f hf
    obtain ⟨f, rfl⟩ : ∃ k, f = k + 1 := ⟨f - 1, by simp at hf; omega⟩
    have hb := hd b (List.mem_cons_self _ _)
    have hne : b.length ≠ 0 := by omega
    rw [framesOf, List.append_assoc, decode_frame f b _ hb.1 hb.2,
      ih (fun w hw => hd w (List.mem_cons_of_mem _ hw)) f (by simp at hf; omega)]
    simp [toRec, hne]

theorem decode_imageOf (vols : List (List (List Nat))) (hd : ∀ v, v ∈ vols → DataBlocks v)
    (X : List Nat) (r : List Rec) (fuel : Nat) (hX : ∀ f, fuel ≤ f → decode f X = some r) :
    ∀ f, fuel + (sourceOf vols).length ≤ f →
      decode f (imageOf vols ++ X) = some ((sourceOf vols).map toRec ++ r) := by
  induction vols with
  | nil => intro f hf; simpa [imageOf, sourceOf] using hX f (by simpa [sourceOf] using hf)
  | cons v vs ih =>
    intro f hf
    have hlen : (sourceOf (v :: vs)).length = v.length + 1 + (sourceOf vs).length := by
      simp [sourceOf]; omega
    have h1 : ∀ g, fuel + (sourceOf vs).length + 1 ≤ g →
        decode g (tapeMark ++ (imageOf vs ++ X)) =
          some (Rec.mark :: ((sourceOf vs).map toRec ++ r)) := by
      intro g hg
      obtain ⟨g, rfl⟩ : ∃ k, g = k + 1 := ⟨g - 1, by omega⟩
      rw [decode_mark, ih (fun w hw => hd w (List.mem_cons_of_mem _ hw)) g (by omega)]
      rfl
    have h2 := decode_framesOf v (hd v (List.mem_cons_self _ _)) _ _ _ h1 f (by omega)
    simp only [imageOf, List.append_assoc]
    rw [h2]
    simp [sourceOf, toRec]

theorem decode_two_marks (f : Nat) (hf : 2 ≤ f) :
    decode f (tapeMark ++ tapeMark) = some [Rec.mark, Rec.mark] := by
  obtain ⟨f, rfl⟩ : ∃ k, f = k + 2 := ⟨f - 2, by omega⟩
  simp [tapeMark, decode]

theorem frame_length (b : List Nat) : 4 ≤ (frame b).length := by
  unfold frame
  split
  · simp [tapeMark]
  · simp [le4]

theorem framesOf_length (v : List (List Nat)) : v.length ≤ (framesOf v).length := by
  induction v with
  | nil => simp
  | cons b bs ih =>
    have := frame_length b
    simp [framesOf]; omega

theorem imageOf_length (vols : List (List (List Nat))) :
    (sourceOf vols).length ≤ (imageOf vols).length := by
  induction vols with
  | nil => simp [sourceOf]
  | cons v vs ih =>
    have := framesOf_length v
    simp [sourceOf, imageOf, tapeMark]; omega

theorem decodeImage_spec (vols : List (List (List Nat))) (hd : ∀ v, v ∈ vols → DataBlocks v) :
    decodeImage (imageOf vols ++ tapeMark ++ tapeMark) =
      some ((sourceOf vols ++ [[]]).map toRec ++ [Rec.mark]) := by
  have h := decode_imageOf vols hd (tapeMark ++ tapeMark) [Rec.mark, Rec.mark] 2
    (fun f hf => decode_two_marks f hf) (imageOf vols ++ (tapeMark ++ tapeMark)).length
    (by have := imageOf_length vols; simp [tapeMark]; omega)
  rw [decodeImage, List.append_assoc, h]
  simp [toRec]


/-! ## The claims -/

theorem record_length (data : List Nat) (nc : Nat) (hlen : data.length = nc) :
    (le4 nc ++ data ++ pad nc ++ le4 nc).length = 8 + nc + nc % 2 ∧
      (data ++ pad nc).length = nc + nc % 2 ∧ (nc + nc % 2) % 2 = 0 := by
  by_cases hodd : nc % 2 = 0
  · simp [le4, pad, hodd, hlen]; omega
  · have h1 : nc % 2 = 1 := by omega
    simp [le4, pad, h1, hlen]; omega

/-- C2 (data record layout): for a block `data` of `nc` bytes, `1 ≤ nc ≤
MAXSIZE`, that a physical read stored in the buffer, the three write steps of
the parent (lines 195-206) and those of the child (lines 151-162) append to
the image exactly the four little-endian count bytes, the `nc` payload bytes
unchanged, one zero byte iff `nc` is odd, and the same four count bytes; the
record has `8 + nc + nc % 2` bytes and its payload area has the even length
`nc + nc % 2`. -/
theorem C2_data_record_layout (src : List (List Nat)) (sp sc : State) (data buf0 : List Nat)
    (nc : Nat) (h1 : 1 ≤ nc) (h2 : nc ≤ MAXSIZE) (hlen : data.length = nc)
    (hb0 : buf0.length = MAXSIZE)
    (hp : sp.ppc = pPut1) (hpn : sp.pnc = nc) (hpb : sp.pbuf = readInto buf0 data)
    (hc : sc.cpc = cPut1) (hcn : sc.cnc = nc) (hcb : sc.cbuf = readInto buf0 data) :
    (∃ s1 s2 s3, stepParent src sp = some s1 ∧ stepParent src s1 = some s2 ∧
        stepParent src s2 = some s3 ∧ s3.ppc = pSendW ∧
        s3.image = sp.image ++
          ([nc % 256, (nc / 256) % 256, (nc / 65536) % 256, (nc / 16777216) % 256] ++ data ++
            (if nc % 2 ≠ 0 then [0] else []) ++
            [nc % 256, (nc / 256) % 256, (nc / 65536) % 256, (nc / 16777216) % 256])) ∧
      (∃ s1 s2 s3, stepChild src sc = some s1 ∧ stepChild src s1 = some s2 ∧
        stepChild src s2 = some s3 ∧ s3.cpc = cSendW ∧
        s3.image = sc.image ++
          ([nc % 256, (nc / 256) % 256, (nc / 65536) % 256, (nc / 16777216) % 256] ++ data ++
            (if nc % 2 ≠ 0 then [0] else []) ++
            [nc % 256, (nc / 256) % 256, (nc / 65536) % 256, (nc / 16777216) % 256])) ∧
      ([nc % 256, (nc / 256) % 256, (nc / 65536) % 256, (nc / 16777216) % 256] ++ data ++
            (if nc % 2 ≠ 0 then [0] else []) ++
            [nc % 256, (nc / 256) % 256, (nc / 65536) % 256, (nc / 16777216) % 256]).length
          = 8 + nc + nc % 2 ∧
      (data ++ (if nc % 2 ≠ 0 then [0] else [])).length = nc + nc % 2 ∧
      (nc + nc % 2) % 2 = 0 := by
  have hnz : nc ≠ 0 := by omega
  have htake : (readInto buf0 data).take nc = data := by rw [← hlen]; exact readInto_take _ _
  have hlenb : (readInto buf0 data).length = MAXSIZE := by
    rw [readInto_length _ _ (by omega), hb0]
  obtain ⟨buf1, nx, hpe, htk, _, _, _⟩ :=
    padEven_spec (readInto buf0 data) data nc hlenb hlen.symm h2 htake
  have hrec := record_length data nc hlen
  refine ⟨?_, ?_, ?_⟩
  · refine ⟨{ sp with image := sp.image ++ PutCount nc, ppc := pData },
      { sp with image := sp.image ++ PutCount nc ++ buf1.take nx, pbuf := buf1, ppc := pPut2 },
      { sp with image := sp.image ++ PutCount nc ++ buf1.take nx ++ PutCount nc, pbuf := buf1,
                ppc := pSendW }, ?_, ?_, ?_, rfl, ?_⟩
    · simp [stepParent, hp, hpn, hnz]
    · simp [stepParent, hpn, hpb, hpe]
    · simp [stepParent, hpn]
    · simp [PutCount_eq_le4, le4, htk, pad]
  · refine ⟨{ sc with image := sc.image ++ PutCount nc, cpc := cData },
      { sc with image := sc.image ++ PutCount nc ++ buf1.take nx, cbuf := buf1, cpc := cPut2 },
      { sc with image := sc.image ++ PutCount nc ++ buf1.take nx ++ PutCount nc, cbuf := buf1,
                cpc := cSendW }, ?_, ?_, ?_, rfl, ?_⟩
    · simp [stepChild, hc, hcn, hnz]
    · simp [stepChild, hcn, hcb, hpe]
    · simp [stepChild, hcn]
    · simp [PutCount_eq_le4, le4, htk, pad]
  · simpa [le4, pad] using hrec


theorem C2_data_record_layout_witness :
    (∃ s1 s2 s3, stepParent [] exampleWriter = some s1 ∧ stepParent [] s1 = some s2 ∧
        stepParent [] s2 = some s3 ∧ s3.ppc = pSendW ∧
        s3.image = [9] ++ [5, 0, 0, 0, 1, 2, 3, 4, 5, 0, 5, 0, 0, 0]) ∧
      (∃ s1 s2 s3, stepChild [] exampleWriter = some s1 ∧ stepChild [] s1 = some s2 ∧
        stepChild [] s2 = some s3 ∧ s3.cpc = cSendW ∧
        s3.image = [9] ++ [5, 0, 0, 0, 1, 2, 3, 4, 5, 0, 5, 0, 0, 0]) :=
  have h := C2_data_record_layout [] exampleWriter exampleWriter [1, 2, 3, 4, 5]
    (List.replicate MAXSIZE 0) 5 (by decide) (by decide) rfl (by simp) rfl rfl rfl rfl rfl rfl
  ⟨h.1, h.2.1⟩

/-- C10 (pad write stays inside the buffer): with `MAXSIZE = 20 * 1024` and a
buffer of `MAXSIZE` bytes, for every read length `nc ≤ MAXSIZE` the pad store
`buffer[nx++] = 0` happens only at an index `nc < MAXSIZE` and the number of
bytes written `nx = nc + nc % 2` is at most `MAXSIZE`, so `padEven` succeeds;
and in every reachable state of a pass in which the parent (line 200) or the
child (line 156) is about to pad and write, its `nc` and buffer are such. -/
theorem C10_pad_inside_buffer (src : List (List Nat)) (m : Main)
    (hbl : m.buffer.length = MAXSIZE) (buffer : List Nat) (nc : Nat)
    (hb : buffer.length = MAXSIZE) (hnc : nc ≤ MAXSIZE) :
    MAXSIZE = 20 * 1024 ∧ (nc % 2 ≠ 0 → nc < MAXSIZE) ∧
      (∃ buf nx, padEven buffer nc = some (buf, nx) ∧ nx = nc + nc % 2 ∧ nx ≤ MAXSIZE ∧
        buf.length = MAXSIZE) ∧
      (∀ tr s, Reach src (initPass m) tr s →
        (s.ppc = pData → s.pnc ≤ MAXSIZE ∧ s.pbuf.length = MAXSIZE ∧
          ∃ buf nx, padEven s.pbuf s.pnc = some (buf, nx) ∧ nx ≤ MAXSIZE) ∧
        (s.cpc = cData → s.cnc ≤ MAXSIZE ∧ s.cbuf.length = MAXSIZE ∧
          ∃ buf nx, padEven s.cbuf s.cnc = some (buf, nx) ∧ nx ≤ MAXSIZE)) := by
  have hM := MAXSIZE_eq
  refine ⟨rfl, fun _ => by omega, ?_, ?_⟩
  · obtain ⟨buf1, nx, hpe, _, hl, hnx, hle⟩ :=
      padEven_spec buffer (buffer.take nc) nc hb (by simp; omega) hnc rfl
    exact ⟨buf1, nx, hpe, hnx, hle, hl⟩
  · intro tr s hr
    have hd := Inv_data (Inv_reach hbl hr)
    constructor
    · intro hp
      obtain ⟨h1, h2⟩ := hd.1 hp
      obtain ⟨buf1, nx, hpe, _, _, _, hle⟩ :=
        padEven_spec s.pbuf (s.pbuf.take s.pnc) s.pnc h2 (by simp; omega) h1 rfl
      exact ⟨h1, h2, buf1, nx, hpe, hle⟩
    · intro hc
      obtain ⟨h1, h2⟩ := hd.2 hc
      obtain ⟨buf1, nx, hpe, _, _, _, hle⟩ :=
        padEven_spec s.cbuf (s.cbuf.take s.cnc) s.cnc h2 (by simp; omega) h1 rfl
      exact ⟨h1, h2, buf1, nx, hpe, hle⟩

theorem C10_pad_inside_buffer_witness :
    (20479 % 2 ≠ 0 → 20479 < MAXSIZE) ∧
      (∃ buf nx, padEven (List.replicate MAXSIZE 7) 20479 = some (buf, nx) ∧
        nx = 20479 + 20479 % 2 ∧ nx ≤ MAXSIZE ∧ buf.length = MAXSIZE) :=
  have h := C10_pad_inside_buffer [[1, 2, 3], []] initMain initMain_buffer
    (List.replicate MAXSIZE 7) 20479 (by simp) (by decide)
  ⟨h.2.1, h.2.2.1⟩


/-- C8 (token mutual exclusion): in every state reachable from the start of a
Reader Pair pass (parent at its first read, child about to send its first
token, both pipes empty) the parent and the child are never both at their
physical read (lines 174 and 134) and never both inside their writes to the
image file (lines 195-206 and 151-162); and along every execution each unit
has performed at most one physical read since the last token it received. -/
theorem C8_token_mutual_exclusion (src : List (List Nat)) (m : Main)
    (hbl : m.buffer.length = MAXSIZE) (tr : List (Bool × State)) (s : State)
    (hr : Reach src (initPass m) tr s) :
    ¬ (s.ppc = pRead ∧ s.cpc = cRead) ∧ ¬ (inWriteP s.ppc ∧ inWriteC s.cpc) ∧
      readsSinceRecv true tr ≤ 1 ∧ readsSinceRecv false tr ≤ 1 := by
  have hmx := Inv_mutex (Inv_reach hbl hr)
  refine ⟨hmx.1, hmx.2, ?_, ?_⟩
  · rw [monitor_parent rfl hr]; split <;> omega
  · rw [monitor_child rfl hr]; split <;> omega

theorem C8_token_mutual_exclusion_witness :
    ∃ s1 s2, step [[1, 2, 3], []] false (initPass initMain) = some s1 ∧
      step [[1, 2, 3], []] true s1 = some s2 ∧
      ¬ (s2.ppc = pRead ∧ s2.cpc = cRead) ∧ ¬ (inWriteP s2.ppc ∧ inWriteC s2.cpc) ∧
      readsSinceRecv true [(true, s1), (false, initPass initMain)] ≤ 1 ∧
      readsSinceRecv false [(true, s1), (false, initPass initMain)] ≤ 1 :=
  ⟨_, _, rfl, rfl,
    C8_token_mutual_exclusion [[1, 2, 3], []] initMain initMain_buffer _ _
      (Reach.step true _ _ _ (Reach.step false _ _ _ Reach.init rfl) rfl)⟩


/-- C7 (determinism under concurrency): for every source and every
interleaving of the steps of the parent and of the child, the image is at
every moment a prefix of the image of the single-threaded loop (read a block,
frame it, read the next), every execution that is not finished can take a
step, no execution is longer than `8 * src.length + 7` steps, and when the
parent has joined the child the image is exactly that of the single-threaded
loop; under every schedule the pass ends with that image. -/
theorem C7_deterministic_image (src : List (List Nat)) (m : Main)
    (hbl : m.buffer.length = MAXSIZE) :
    (∀ tr s, Reach src (initPass m) tr s →
        s.image <+: m.image ++ serialFrom (src.drop m.pos) ∧
        tr.length ≤ 8 * src.length + 7 ∧
        (s.ppc ≠ pDone → ∃ who s1, step src who s = some s1) ∧
        (s.ppc = pDone → s.image = m.image ++ serialFrom (src.drop m.pos))) ∧
      (∀ sched fuel, 8 * src.length + 8 ≤ fuel →
        ∃ s sched1, runPass src fuel sched (initPass m) = some (s, sched1) ∧
          s.image = m.image ++ serialFrom (src.drop m.pos)) := by
  obtain ⟨N, hneN, hN, hNle⟩ := exists_mark src m.pos
  have hser := written_serial src N m.pos hneN hN
  constructor
  · intro tr s hr
    have hinv := Inv_reach hbl hr
    refine ⟨?_, ?_, ?_, ?_⟩
    · have := Inv_image hinv N hneN hN
      rwa [List.append_assoc, hser] at this
    · have := (Inv_bound hinv N hN).1
      omega
    · intro hnd
      rcases Inv_progress hinv hnd with ⟨s1, h1⟩ | ⟨s1, h1⟩
      · exact ⟨true, s1, by simpa [step] using h1⟩
      · exact ⟨false, s1, by simpa [step] using h1⟩
    · intro hd
      obtain ⟨h, hne, hz, himg, _⟩ := Inv_done hinv hd
      have hh : h = N := eq_of_mark hne hz hneN hN
      subst hh
      rw [himg, List.append_assoc, hser]
  · intro sched fuel hfuel
    obtain ⟨s1, sched1, hrun, himg, _⟩ :=
      pass_result src m hbl N hneN hN fuel (by omega) sched
    exact ⟨s1, sched1, hrun, by rw [himg, List.append_assoc, hser]⟩

theorem C7_deterministic_image_witness :
    ∃ s sched1, runPass [[1, 2, 3], [4, 5], []] 32 [false, true, true, false] (initPass initMain)
        = some (s, sched1) ∧
      s.image = initMain.image ++ serialFrom ([[1, 2, 3], [4, 5], []].drop initMain.pos) :=
  (C7_deterministic_image [[1, 2, 3], [4, 5], []] initMain initMain_buffer).2
    [false, true, true, false] 32 (by decide)

/-- C9 (no read past the tape mark): in a pass over a source whose first
zero-length read is its `(N + 1)`-th read, no reachable state has more than
`N + 1` physical reads performed, every unfinished execution can take a step
and none has more than `8 * N + 7` steps; when the parent has left its loop
and joined the child exactly `N + 1` reads have been performed, the child has
exited, both pipes are empty, and the unit that did not read the tape mark
(the child when `N` is even, the parent when `N` is odd) holds the end flag
it received; under every schedule the pass ends in such a state. -/
theorem C9_no_read_past_mark (src : List (List Nat)) (m : Main)
    (hbl : m.buffer.length = MAXSIZE) (N : Nat)
    (hneN : ∀ i, i < N → (readData src (m.pos + i)).length ≠ 0)
    (hN : (readData src (m.pos + N)).length = 0) :
    (∀ tr s, Reach src (initPass m) tr s →
        s.pos ≤ m.pos + N + 1 ∧ tr.length ≤ 8 * N + 7 ∧
        (s.ppc ≠ pDone → ∃ who s1, step src who s = some s1) ∧
        (s.ppc = pDone → s.pos = m.pos + N + 1 ∧ s.cpc = cExit ∧ s.pipe0 = [] ∧
          s.pipe1 = [] ∧ (N % 2 = 0 → s.ceof = true) ∧ (N % 2 = 1 → s.peof = true))) ∧
      (∀ sched fuel, 8 * N + 8 ≤ fuel →
        ∃ s sched1, runPass src fuel sched (initPass m) = some (s, sched1) ∧
          s.pos = m.pos + N + 1 ∧ s.ppc = pDone ∧ s.cpc = cExit ∧ s.pipe0 = [] ∧
          s.pipe1 = [] ∧ (N % 2 = 0 → s.ceof = true) ∧ (N % 2 = 1 → s.peof = true)) := by
  constructor
  · intro tr s hr
    have hinv := Inv_reach hbl hr
    have hb := Inv_bound hinv N hN
    refine ⟨hb.2, hb.1, ?_, ?_⟩
    · intro hnd
      rcases Inv_progress hinv hnd with ⟨s1, h1⟩ | ⟨s1, h1⟩
      · exact ⟨true, s1, by simpa [step] using h1⟩
      · exact ⟨false, s1, by simpa [step] using h1⟩
    · intro hd
      obtain ⟨h, hne, hz, _, hpos, _, _, h0, h1, hc, _, _, he0, he1⟩ := Inv_done hinv hd
      have hh : h = N := eq_of_mark hne hz hneN hN
      subst hh
      exact ⟨hpos, hc, h0, h1, he0, he1⟩
  · intro sched fuel hfuel
    obtain ⟨s1, sched1, hrun, _, hpos, _, _, _, h0, h1, hd, hc, he0, he1⟩ :=
      pass_result src m hbl N hneN hN fuel hfuel sched
    exact ⟨s1, sched1, hrun, hpos, hd, hc, h0, h1, he0, he1⟩

theorem C9_no_read_past_mark_witness :
    ∃ s sched1, runPass [[1, 2, 3], [4, 5], [6], [], [7]] 32 [false, false, true]
        (initPass initMain) = some (s, sched1) ∧
      s.pos = initMain.pos + 3 + 1 ∧ s.ppc = pDone ∧ s.cpc = cExit ∧ s.pipe0 = [] ∧
      s.pipe1 = [] ∧ (3 % 2 = 0 → s.ceof = true) ∧ (3 % 2 = 1 → s.peof = true) :=
  (C9_no_read_past_mark [[1, 2, 3], [4, 5], [6], [], [7]] initMain initMain_buffer 3
    (by decide) (by decide)).2 [false, false, true] 32 (by decide)


theorem timage_sourceOf (vols : List (List (List Nat))) (rest : List (List Nat))
    (hvols : ∀ v, v ∈ vols → v ≠ [] ∧ DataBlocks v) (hrest : rest.headD [] = [])
    (sched : List Bool) (fuel : Nat) (hfuel : 8 * (sourceOf vols ++ rest).length + 8 ≤ fuel) :
    timage (sourceOf vols ++ rest) fuel sched =
      some (imageOf vols ++ tapeMark ++ tapeMark, diagOf vols ++ ["EOM\n"]) := by
  have htape := onTape_sourceOf vols rest hrest (fun v hv => (hvols v hv).2) []
  simp only [List.nil_append, List.length_nil] at htape
  have hlen : (sourceOf vols ++ rest).length = (sourceOf vols).length + rest.length := by simp
  refine timage_spec _ vols hvols htape fuel ?_ (by omega) ?_ sched
  · intro v hv
    have := length_le_sourceOf vols v hv
    omega
  · have := count_le_sourceOf vols
    omega

/-- C3 (whole-image structure and final tape mark): for a source made of the
volumes `vols` (each with at least one data block, every block of length
`1 .. MAXSIZE`), then a volume without data block, then any further volumes,
and for every schedule, `timage` processes the volumes up to and including
the empty one: the image is, for each processed volume, its data records in
read order and one tape mark, followed by one more tape mark; so its final
record is a tape mark. -/
theorem C3_image_structure (vols later : List (List (List Nat)))
    (hvols : ∀ v, v ∈ vols → v ≠ [] ∧ DataBlocks v) (sched : List Bool) (fuel : Nat)
    (hfuel : 8 * (sourceOf (vols ++ [] :: later)).length + 8 ≤ fuel) :
    ∃ diag, timage (sourceOf (vols ++ [] :: later)) fuel sched =
      some (imageOf (vols ++ [[]]) ++ tapeMark, diag) := by
  have hsrc : sourceOf (vols ++ [] :: later) = sourceOf vols ++ ([] :: sourceOf later) := by
    rw [sourceOf_append]; rfl
  have himg : imageOf (vols ++ [[]]) = imageOf vols ++ tapeMark := by
    rw [imageOf_append]; simp [imageOf, framesOf]
  rw [hsrc] at hfuel ⊢
  rw [himg]
  exact ⟨_, timage_sourceOf vols ([] :: sourceOf later) hvols rfl sched fuel hfuel⟩

theorem C3_image_structure_witness :
    ∃ diag, timage (sourceOf ([[[1, 2, 3]], [[4, 5], [6]]] ++ [] :: [[[7]]])) 100 [false, true]
      = some (imageOf ([[[1, 2, 3]], [[4, 5], [6]]] ++ [[]]) ++ tapeMark, diag) :=
  C3_image_structure [[[1, 2, 3]], [[4, 5], [6]]] [[[7]]] (by simp [DataBlocks, MAXSIZE])
    [false, true] 100 (by decide)


/-- In a pass whose first read is zero-length no step of the child changes the image. -/
theorem child_writes_nothing {src : List (List Nat)} {p0 : Nat} {base : List Nat} {n : Nat}
    {s s1 : State} (hinv : Inv src p0 base n s) (hz0 : (blk src p0 0).length = 0)
    (hstep : stepChild src s = some s1) : s1.image = s.image := by
  cases hinv with
  | evenCycle h a nrd b pin pout cin cout part hpar hne hP hC h0 h1 hpos himg hn =>
    have hh : h = 0 := Nat.le_zero.mp (le_of_mark hne hz0)
    cases hC with
    | recvW _ hh0 _ => exact absurd hh hh0
    | put1 _ hh0 _ _ => exact absurd hh hh0
    | data _ hh0 _ _ => exact absurd hh hh0
    | put2 _ hh0 _ _ _ => exact absurd hh hh0
    | sendW hc _ _ =>
      simp only [stepChild, hc, Option.some.injEq] at hstep
      subst hstep; rfl
    | recvR hc _ =>
      simp only [stepChild, hc] at hstep
      split at hstep
      · simp at hstep
      · simp only [Option.some.injEq] at hstep
        subst hstep; rfl
  | oddCycle h a nrd b pin pout cin cout part hpar hne hC hP h0 h1 hpos himg hn =>
    have hh : h = 0 := Nat.le_zero.mp (le_of_mark hne hz0)
    omega
  | parentMark h a b pin cin mark hpar hne hz hP hC h0 h1 hpos himg hn hfin =>
    cases hC with
    | recvR hc =>
      simp only [stepChild, hc] at hstep
      split at hstep
      · simp at hstep
      · simp only [Option.some.injEq] at hstep
        subst hstep; rfl
    | exit hc _ => simp [stepChild, hc] at hstep
  | childMark h a b pin cin mark hpar hne hz hP hC h0 h1 hpos himg hn hfin =>
    have hh : h = 0 := Nat.le_zero.mp (le_of_mark hne hz0)
    omega

/-- C4 (source whose first read is zero-length): under every schedule the
image file is exactly two tape-mark records (8 zero bytes) and the only
diagnostic line is `EOM`; the single pass ends with one tape mark written and
`count = 0`, and no step of the child changes the image. -/
theorem C4_empty_source (src : List (List Nat)) (h : readData src 0 = [])
    (sched : List Bool) (fuel : Nat) (hfuel : 8 ≤ fuel) :
    timage src fuel sched = some ([0, 0, 0, 0, 0, 0, 0, 0], ["EOM\n"]) ∧
      (∃ s sched1, runPass src fuel sched (initPass initMain) = some (s, sched1) ∧
        s.image = [0, 0, 0, 0] ∧ s.count = 0) ∧
      (∀ tr s s1, Reach src (initPass initMain) tr s → stepChild src s = some s1 →
        s1.image = s.image) := by
  have hz : (blk src initMain.pos 0).length = 0 := by
    show (readData src (0 + 0)).length = 0
    rw [h]; rfl
  refine ⟨?_, ?_, ?_⟩
  · have := timage_spec src [] (fun v hv => by simp at hv) h fuel
      (fun v hv => by simp at hv) hfuel (by simp; omega) sched
    simpa [imageOf, diagOf, tapeMark] using this
  · obtain ⟨s1, sched1, hrun, himg, _, hcnt, _⟩ :=
      pass_result src initMain initMain_buffer 0 (fun i hi => absurd hi (Nat.not_lt_zero i))
        hz fuel (by omega) sched
    exact ⟨s1, sched1, hrun, by simpa [initMain, written, tapeMark] using himg, hcnt⟩
  · intro tr s s1 hr hstep
    exact child_writes_nothing (Inv_reach initMain_buffer hr) hz hstep

theorem C4_empty_source_witness :
    timage [[], [1, 2]] 8 [false] = some ([0, 0, 0, 0, 0, 0, 0, 0], ["EOM\n"]) :=
  (C4_empty_source [[], [1, 2]] (by decide) [false] 8 (by decide)).1


theorem readData_all_empty (b : List Nat) (zs : List (List Nat))
    (hzs : ∀ z, z ∈ zs → z = []) (i : Nat) : readData (b :: zs) (i + 1) = [] := by
  have h1 : zs.getD i [] = [] := by
    rw [List.getD_eq_getElem?_getD]
    cases hi : zs[i]? with
    | none => rfl
    | some z => simp [hzs z (List.getElem?_mem hi)]
  rw [readData, List.getD_cons_succ, h1]; rfl

theorem onTape_single (b : List Nat) (zs : List (List Nat)) (hb : b.length ≤ MAXSIZE)
    (hzs : ∀ z, z ∈ zs → z = []) : OnTape (b :: zs) 0 [[b]] := by
  refine ⟨?_, ?_, ?_⟩
  · intro i hi
    have : i = 0 := by simpa using hi
    subst this
    simp [readData, List.take_of_length_le hb]
  · exact readData_all_empty b zs hzs 0
  · exact readData_all_empty b zs hzs 1

/-- C5, counterexample: for the source `[1, 2, 3, 4, 5]` then zero-length
reads, the image has 26 bytes (the data record and three tape marks, the
second one written for the empty second volume), not the 22 bytes of the
claim, and the diagnostic has the line `EOM` after the line of the volume. -/
theorem C5_counterexample :
    timage [[1, 2, 3, 4, 5], []] 16 [] =
        some ([5, 0, 0, 0, 1, 2, 3, 4, 5, 0, 5, 0, 0, 0, 0, 0, 0, 0, 0, 0, 0, 0, 0, 0, 0, 0],
          ["1 records, blocksize 5\n", "EOM\n"]) ∧
      ¬ (∃ diag, timage [[1, 2, 3, 4, 5], []] 16 [] =
        some ([5, 0, 0, 0, 1, 2, 3, 4, 5, 0, 5, 0, 0, 0, 0, 0, 0, 0, 0, 0, 0, 0], diag)) := by
  have h := timage_spec [[1, 2, 3, 4, 5], []] [[[1, 2, 3, 4, 5]]]
    (by simp [DataBlocks, MAXSIZE])
    (onTape_single [1, 2, 3, 4, 5] [[]] (by decide) (by simp)) 16
    (by simp) (by decide) (by decide) []
  have himg : imageOf [[[1, 2, 3, 4, 5]]] ++ tapeMark ++ tapeMark =
      [5, 0, 0, 0, 1, 2, 3, 4, 5, 0, 5, 0, 0, 0, 0, 0, 0, 0, 0, 0, 0, 0, 0, 0, 0, 0] := by
    decide
  have hdiag : diagOf [[[1, 2, 3, 4, 5]]] ++ ["EOM\n"] = ["1 records, blocksize 5\n", "EOM\n"] := by
    decide
  rw [himg, hdiag] at h
  refine ⟨h, ?_⟩
  rintro ⟨diag, hd⟩
  rw [h] at hd
  simp at hd

/-- C5, amended: for a source that yields one 5-byte block `b` and then only
zero-length reads, under every schedule the image is the count 5 as four
little-endian bytes, the 5 payload bytes, one zero pad byte, the count 5
again, the tape mark of the volume, the tape mark of the empty second volume
and the terminating tape mark (26 bytes), and the diagnostic lines are
`1 records, blocksize 5` and `EOM`. -/
theorem C5_single_block_image (b : List Nat) (zs : List (List Nat)) (hb : b.length = 5)
    (hzs : ∀ z, z ∈ zs → z = []) (sched : List Bool) (fuel : Nat) (hfuel : 16 ≤ fuel) :
    timage (b :: zs) fuel sched =
        some ([5, 0, 0, 0] ++ b ++ [0] ++ [5, 0, 0, 0] ++ [0, 0, 0, 0] ++ [0, 0, 0, 0] ++
            [0, 0, 0, 0], ["1 records, blocksize 5\n", "EOM\n"]) ∧
      ([5, 0, 0, 0] ++ b ++ [0] ++ [5, 0, 0, 0] ++ [0, 0, 0, 0] ++ [0, 0, 0, 0] ++
            [0, 0, 0, 0]).length = 26 := by
  have hM := MAXSIZE_eq
  have h := timage_spec (b :: zs) [[b]]
    (by
      intro v hv
      have : v = [b] := by simpa using hv
      subst this
      refine ⟨by simp, ?_⟩
      intro c hc
      have : c = b := by simpa using hc
      subst this
      omega)
    (onTape_single b zs (by omega) hzs) fuel
    (by intro v hv; have : v = [b] := by simpa using hv
        subst this; simp; omega) (by omega) (by simp; omega) sched
  have himg : imageOf [[b]] ++ tapeMark ++ tapeMark =
      [5, 0, 0, 0] ++ b ++ [0] ++ [5, 0, 0, 0] ++ [0, 0, 0, 0] ++ [0, 0, 0, 0] ++
        [0, 0, 0, 0] := by
    simp [imageOf, framesOf, frame, hb, le4, pad, tapeMark]
  have hdiag : diagOf [[b]] ++ ["EOM\n"] = ["1 records, blocksize 5\n", "EOM\n"] := by
    simp only [diagOf, List.length_singleton, List.headD_cons, hb]
    decide
  rw [himg, hdiag] at h
  exact ⟨h, by simp [hb]⟩

theorem C5_single_block_image_witness :
    timage [[1, 2, 3, 4, 5], [], []] 16 [true, false] =
      some ([5, 0, 0, 0] ++ [1, 2, 3, 4, 5] ++ [0] ++ [5, 0, 0, 0] ++ [0, 0, 0, 0] ++
        [0, 0, 0, 0] ++ [0, 0, 0, 0], ["1 records, blocksize 5\n", "EOM\n"]) :=
  (C5_single_block_image [1, 2, 3, 4, 5] [[], []] rfl (by simp) [true, false] 16 (by decide)).1

theorem processed_spec (allVols : List (List (List Nat)))
    (hd : ∀ v, v ∈ allVols → DataBlocks v) :
    (∀ v, v ∈ processed allVols → v ≠ [] ∧ DataBlocks v) ∧
      ∃ rest, sourceOf allVols = sourceOf (processed allVols) ++ rest ∧ rest.headD [] = [] := by
  induction allVols with
  | nil => exact ⟨fun v hv => by simp [processed] at hv, [], rfl, rfl⟩
  | cons w ws ih =>
    obtain ⟨h1, rest, h2, h3⟩ := ih (fun v hv => hd v (List.mem_cons_of_mem _ hv))
    by_cases hw : w = []
    · subst hw
      refine ⟨fun v hv => by simp [processed] at hv, [] :: sourceOf ws, ?_, rfl⟩
      simp [processed, sourceOf]
    · refine ⟨?_, rest, ?_, h3⟩
      · intro v hv
        simp only [processed, hw, if_false, List.mem_cons] at hv
        rcases hv with h | h
        · subst h; exact ⟨hw, hd v (List.mem_cons_self _ _)⟩
        · exact h1 v h
      · simp [processed, hw, sourceOf, h2]

theorem diagOf_eq_map (vols : List (List (List Nat))) : diagOf vols = vols.map volumeLine := by
  induction vols with
  | nil => rfl
  | cons v vs ih => simp [diagOf, volumeLine, ih]

/-- C1, counterexample: for the reads `[1]`, zero-length, zero-length, `[2]`,
zero-length, the image decodes to the first block and three tape marks; the
block `[2]` behind the first volume without data block is not in the image. -/
theorem C1_counterexample :
    ∃ img diag, timage [[1], [], [], [2], []] 48 [] = some (img, diag) ∧
      decodeImage img = some [Rec.data [1], Rec.mark, Rec.mark, Rec.mark] ∧
      decodeImage img ≠ some ([[1], [], [], [2], []].map toRec) ∧
      decodeImage img ≠ some ([[1], [], [], [2], []].map toRec ++ [Rec.mark]) := by
  have h := timage_sourceOf [[[1]]] [[], [2], []] (by simp [DataBlocks, MAXSIZE]) rfl [] 48
    (by decide)
  have hdec := decodeImage_spec [[[1]]] (by simp [DataBlocks, MAXSIZE])
  have hrec : (sourceOf [[[1]]] ++ [[]]).map toRec ++ [Rec.mark] =
      [Rec.data [1], Rec.mark, Rec.mark, Rec.mark] := by decide
  rw [hrec] at hdec
  refine ⟨_, _, h, hdec, ?_, ?_⟩
  · rw [hdec]; decide
  · rw [hdec]; decide

/-- C1, amended (round trip up to end-of-medium): for every sequence of
volumes (every block of length `1 .. MAXSIZE`, each volume ended by a
zero-length read, volumes without data block allowed) and every schedule,
the decoder of the documented record format maps the image `timage` writes
to the records of the reads of the volumes up to and including the first one
without data block, in order: a data record with the same payload for each
block, a tape mark at each zero-length read, and then the terminating tape
mark.  When that volume is the last one of the source, these are the records
of all the reads of the source. -/
theorem C1_round_trip_to_end_of_medium (allVols : List (List (List Nat)))
    (hd : ∀ v, v ∈ allVols → DataBlocks v) (sched : List Bool) (fuel : Nat)
    (hfuel : 8 * (sourceOf allVols).length + 8 ≤ fuel) :
    ∃ img diag, timage (sourceOf allVols) fuel sched = some (img, diag) ∧
      decodeImage img =
        some ((sourceOf (processed allVols) ++ [[]]).map toRec ++ [Rec.mark]) ∧
      (processed allVols ++ [[]] = allVols →
        decodeImage img = some ((sourceOf allVols).map toRec ++ [Rec.mark])) := by
  obtain ⟨hp, rest, hsrc, hrest⟩ := processed_spec allVols hd
  have hdec := decodeImage_spec (processed allVols) (fun v hv => (hp v hv).2)
  refine ⟨imageOf (processed allVols) ++ tapeMark ++ tapeMark,
    diagOf (processed allVols) ++ ["EOM\n"], ?_, hdec, ?_⟩
  · rw [hsrc] at hfuel ⊢
    exact timage_sourceOf (processed allVols) rest hp hrest sched fuel hfuel
  · intro hall
    rw [hdec]
    have : sourceOf (processed allVols) ++ [[]] = sourceOf allVols := by
      conv_rhs => rw [← hall]
      rw [sourceOf_append]; rfl
    rw [this]

theorem C1_round_trip_to_end_of_medium_witness :
    ∃ img diag,
      timage (sourceOf [[[1, 2, 3], [4, 5]], [[6]], [], [[7, 8]]]) 100 [false] =
        some (img, diag) ∧
      decodeImage img =
        some ((sourceOf (processed [[[1, 2, 3], [4, 5]], [[6]], [], [[7, 8]]]) ++ [[]]).map toRec
          ++ [Rec.mark]) ∧
      (processed [[[1, 2, 3], [4, 5]], [[6]], [], [[7, 8]]] ++ [[]] =
          [[[1, 2, 3], [4, 5]], [[6]], [], [[7, 8]]] →
        decodeImage img =
          some ((sourceOf [[[1, 2, 3], [4, 5]], [[6]], [], [[7, 8]]]).map toRec ++ [Rec.mark])) :=
  C1_round_trip_to_end_of_medium [[[1, 2, 3], [4, 5]], [[6]], [], [[7, 8]]]
    (by simp [DataBlocks, MAXSIZE]) [false] 100 (by decide)

/-- C6 (reported count and blocksize): for a source whose volumes before the
first one without data block are `vols` (every block of length `1 ..
MAXSIZE`), under every schedule the diagnostic lines that `timage` writes
(lines 237-242) are, in order, one line `<n> records, blocksize <l_1>` for
each volume, `n` its number of data blocks and `l_1` the length of its first
block whatever the lengths of the later blocks, and then `EOM`; and the pass
over each of these volumes ends with `count = n` and `bs = l_1` in the
parent. -/
theorem C6_reported_count_blocksize (vols : List (List (List Nat))) (rest : List (List Nat))
    (hvols : ∀ v, v ∈ vols → v ≠ [] ∧ DataBlocks v) (hrest : rest.headD [] = [])
    (sched : List Bool) (fuel : Nat) (hfuel : 8 * (sourceOf vols ++ rest).length + 8 ≤ fuel) :
    (∃ img, timage (sourceOf vols ++ rest) fuel sched =
        some (img, vols.map volumeLine ++ ["EOM\n"])) ∧
      (∀ v : List (List Nat), volumeLine v =
        toString v.length ++ " records, blocksize " ++ toString (v.headD []).length ++ "\n") ∧
      (∀ (pre post : List (List (List Nat))) (v : List (List Nat)) (m : Main)
          (sched1 : List Bool) (fuel1 : Nat),
        vols = pre ++ v :: post → m.pos = (sourceOf pre).length →
        m.buffer.length = MAXSIZE → 8 * v.length + 8 ≤ fuel1 →
        ∃ s sched2, runPass (sourceOf vols ++ rest) fuel1 sched1 (initPass m) = some (s, sched2) ∧
          s.count = v.length ∧ s.bs = (v.headD []).length ∧
          report s.count s.bs = volumeLine v) := by
  refine ⟨⟨imageOf vols ++ tapeMark ++ tapeMark, ?_⟩, ?_, ?_⟩
  · rw [← diagOf_eq_map]
    exact timage_sourceOf vols rest hvols hrest sched fuel hfuel
  · intro v
    rfl
  · intro pre post v m sched1 fuel1 hsplit hpos hbl hfuel1
    have hv := hvols v (by rw [hsplit]; simp)
    have htape := onTape_sourceOf (v :: post) rest hrest
      (fun w hw => (hvols w (by rw [hsplit]; exact List.mem_append_right _ hw)).2)
      (sourceOf pre)
    have hsrc : sourceOf vols ++ rest = sourceOf pre ++ (sourceOf (v :: post) ++ rest) := by
      rw [hsplit, sourceOf_append, List.append_assoc]
    rw [← hsrc, ← hpos] at htape
    obtain ⟨hreads, hmark, _⟩ := htape
    obtain ⟨hne, hz, _, hbs0⟩ := volume_facts _ m.pos v hv.2 hreads hmark
    obtain ⟨s1, sched2, hrun, _, _, hcnt, hbs, _⟩ :=
      pass_result _ m hbl v.length hne hz fuel1 hfuel1 sched1
    have hlen : v.length ≠ 0 := fun h => hv.1 (List.length_eq_zero.mp h)
    exact ⟨s1, sched2, hrun, hcnt, by rw [hbs, hbs0], by
      rw [hcnt, hbs, hbs0]; simp [report, volumeLine, diagLine, hlen]⟩

theorem C6_reported_count_blocksize_witness :
    ∃ img, timage (sourceOf [[List.replicate 10 7, List.replicate 20 8]] ++ [[], [9]]) 100
        [false, true] = some (img, ["2 records, blocksize 10\n", "EOM\n"]) :=
  (C6_reported_count_blocksize [[List.replicate 10 7, List.replicate 20 8]] [[], [9]]
    (by simp [DataBlocks, MAXSIZE]) rfl [false, true] 100 (by decide)).1

end Timage
